import Mathlib

/-!
Shallow embedding of `logic_gen_tool.py` (UltraQbik/Logic_Tools).

The Python module builds a combinational circuit (an address decoder feeding a
look-up table) as a list of logic gates with a nested-dictionary spatial index,
and serializes it to a blueprint record list.  Python ints are modelled as
`Int`/`Nat`, strings as `String`/`List Char`, dictionaries as association
lists, and the one raised exception (plus Python's `ZeroDivisionError`) as
`Except String`.
-/

set_option autoImplicit false

/-- A 3D grid coordinate `(x, y, z)`; Python uses plain int triples. -/
abbrev Pos := Int × Int × Int

/-- Association-list lookup, first match wins; models `dict.get` on the
nested-`dict` spatial index (each Python dict key occurs at most once, so
first-match and dict lookup agree). -/
def afind {α : Type} : List (Int × α) → Int → Option α
  | [], _ => none
  | (k, v) :: rest, key => if k = key then some v else afind rest key

/-- Association-list store; models `d[key] = val` on a Python dict (replace
the binding if the key is present, append it otherwise). -/
def aset {α : Type} : List (Int × α) → Int → α → List (Int × α)
  | [], key, val => [(key, val)]
  | (k, v) :: rest, key, val =>
    if k = key then (k, val) :: rest else (k, v) :: aset rest key val

/-- `LogicGate` from the source: position, mode code, color, and the list of
target slot ids this gate drives (`connections`). -/
structure LogicGate where
  position : Pos
  mode : Nat
  color : String
  connections : List Nat
deriving DecidableEq, Repr

/-- `mode.lower()`, applied character by character.  (This is extensionally
`String.toLower`; the character-list form is used because the library
function recurses on byte positions, which the kernel cannot evaluate.) -/
def strToLower (s : String) : String :=
  String.mk (s.data.map Char.toLower)

/-- `LogicGate.__init__`: the mode string is lower-cased and looked up in
`{"and": 0, "or": 1, "xor": 2, "nand": 3, "nor": 4, "xnor": 5}` with default
`0`; `connections` starts empty. -/
def LogicGate.make (position : Pos) (mode : String) (color : String) : LogicGate :=
  { position := position
    mode := (List.lookup (strToLower mode)
      [("and", 0), ("or", 1), ("xor", 2), ("nand", 3), ("nor", 4), ("xnor", 5)]).getD 0
    color := color
    connections := [] }

/-- `LogicGate.connect_to`: append a target slot id. -/
def LogicGate.connect_to (g : LogicGate) (id_ : Nat) : LogicGate :=
  { g with connections := g.connections ++ [id_] }

/-- `Circuit` from the source: the ordered gate list, the x→y→z nested
spatial index (`index_lut`), and the running id counter. -/
structure Circuit where
  logic_gates : List LogicGate
  index_lut : List (Int × List (Int × List (Int × Nat)))
  id_counter : Nat
deriving DecidableEq, Repr

/-- `Circuit.__init__`: empty circuit. -/
def Circuit.empty : Circuit :=
  { logic_gates := [], index_lut := [], id_counter := 0 }

/-- `Circuit.is_solid`: three-level existence check with early `False`
returns. -/
def Circuit.is_solid (c : Circuit) (position : Pos) : Bool :=
  match afind c.index_lut position.1 with
  | none => false
  | some d2 =>
    match afind d2 position.2.1 with
    | none => false
    | some d3 =>
      match afind d3 position.2.2 with
      | none => false
      | some _ => true

/-- `Circuit.get_block`: `index_lut.get(px, {}).get(py, {}).get(pz)`;
`none` models Python's `None` result for a missing coordinate. -/
def Circuit.get_block (c : Circuit) (position : Pos) : Option Nat :=
  afind ((afind ((afind c.index_lut position.1).getD []) position.2.1).getD [])
    position.2.2

/-- `Circuit.generate_lut`: create the missing nesting levels, register the
leaf under the current `id_counter` ONLY if the coordinate is not already
registered, and always advance the counter.  The unconditional write-backs
mirror Python's in-place mutation of the (already linked) inner dicts. -/
def Circuit.generate_lut (c : Circuit) (position : Pos) : Circuit :=
  let px := position.1
  let py := position.2.1
  let pz := position.2.2
  let lut1 := if (afind c.index_lut px).isNone then aset c.index_lut px [] else c.index_lut
  let d2 := (afind lut1 px).getD []
  let d2a := if (afind d2 py).isNone then aset d2 py [] else d2
  let d3 := (afind d2a py).getD []
  let d3a := if (afind d3 pz).isNone then aset d3 pz c.id_counter else d3
  let d2b := aset d2a py d3a
  let lut2 := aset lut1 px d2b
  { c with index_lut := lut2, id_counter := c.id_counter + 1 }

/-- `Circuit.add_logic`: append the gate and index its position. -/
def Circuit.add_logic (c : Circuit) (logic_gate : LogicGate) : Circuit :=
  let c' := { c with logic_gates := c.logic_gates ++ [logic_gate] }
  c'.generate_lut logic_gate.position

/-- Replace the element at index `i` by `f` of it (no-op out of range);
models Python's in-place `self.logic_gates[i].connect_to(...)`. -/
def modifyIdx : List LogicGate → Nat → (LogicGate → LogicGate) → List LogicGate
  | [], _, _ => []
  | x :: xs, 0, f => f x :: xs
  | x :: xs, n + 1, f => x :: modifyIdx xs n f

/-- `self.logic_gates[self.get_block(p)].connect_to(self.get_block(q))`:
look both coordinates up and append the target id to the source gate.  In
`wire_gates` this always runs under an `is_solid` guard on both ends, so
both lookups succeed there; the fall-through arm is dead code under that
guard. -/
def Circuit.connectBlocks (c : Circuit) (p q : Pos) : Circuit :=
  match c.get_block p, c.get_block q with
  | some i, some j =>
    { c with logic_gates := modifyIdx c.logic_gates i (fun g => g.connect_to j) }
  | _, _ => c

/-- One iteration of the equal-length branch of `wire_gates`: skip the pair
unless both endpoints are occupied, else connect them. -/
def Circuit.wireStep (c : Circuit) (pq : Pos × Pos) : Circuit :=
  if c.is_solid pq.1 && c.is_solid pq.2 then c.connectBlocks pq.1 pq.2 else c

/-- The message of the one exception `wire_gates` raises. -/
def arityMsg : String :=
  "Unmatched amount of inputs and outputs!"

/-- Python's `ZeroDivisionError` message, raised by `n // 0`. -/
def zeroDivMsg : String :=
  "ZeroDivisionError: integer division or modulo by zero"

/-- `Circuit.wire_gates`: equal lengths → pairwise connect (skipping pairs
with an unoccupied endpoint); else a length-1 input list → fan-out (no-op if
the input is unoccupied, skipping unoccupied outputs); else a length-1
output list → fan-in (symmetrically); else raise. -/
def Circuit.wire_gates (c : Circuit) (input_pos output_pos : List Pos) :
    Except String Circuit :=
  if input_pos.length = output_pos.length then
    Except.ok (List.foldl Circuit.wireStep c (input_pos.zip output_pos))
  else
    match input_pos, output_pos with
    | [p], outs =>
      if !(c.is_solid p) then Except.ok c
      else Except.ok (List.foldl
        (fun c' q => if c'.is_solid q then c'.connectBlocks p q else c') c outs)
    | ins, [q] =>
      if !(c.is_solid q) then Except.ok c
      else Except.ok (List.foldl
        (fun c' p => if c'.is_solid p then c'.connectBlocks p q else c') c ins)
    | _, _ => Except.error arityMsg

/-- One record of the exported blueprint: `Circuit.to_blueprint` emits, per
gate and in gate-list order, its color, mode, enumeration index (`id`), the
connection target ids, and the position.  The surrounding JSON envelope
(`shapeId`, axes, `bodies` wrapper) carries no further circuit data and is
the out-of-scope serialization boundary. -/
structure BlueprintChild where
  color : String
  mode : Nat
  id : Nat
  connections : List Nat
  pos : Pos
deriving DecidableEq, Repr

/-- `Circuit.to_blueprint`: `enumerate(self.logic_gates)` into records. -/
def Circuit.to_blueprint (c : Circuit) : List BlueprintChild :=
  c.logic_gates.enum.map (fun p =>
    { color := p.2.color
      mode := p.2.mode
      id := p.1
      connections := p.2.connections
      pos := p.2.position })

/-- `True` exactly on the `Except.error` case. -/
def isErrB {ε α : Type} : Except ε α → Bool
  | Except.error _ => true
  | Except.ok _ => false

/-- Fuel-bounded binary digit list, most significant first: with enough fuel
this is `bin(n)[2:]` for `n ≥ 1` (empty for `n = 0`).  The fuel argument
makes the definition structural so the kernel can evaluate it; any fuel
`≥ n` gives the same answer (`binDigitsF_fuel`). -/
def binDigitsF : Nat → Nat → List Nat
  | 0, _ => []
  | fuel + 1, n => if n = 0 then [] else binDigitsF fuel (n / 2) ++ [n % 2]

/-- The digit list of Python's `bin(n)[2:]`, as numbers: `[0]` for `0`,
else the most-significant-first base-2 digits. -/
def natBin (n : Nat) : List Nat :=
  if n = 0 then [0] else binDigitsF n n

/-- A binary digit as the character Python's `bin` prints for it. -/
def digitChar (d : Nat) : Char :=
  if d = 1 then '1' else '0'

/-- `int(char)` for the binary-digit characters that occur here. -/
def pyIntDigit (c : Char) : Nat :=
  if c = '1' then 1 else 0

/-- `bin(n)[2:]` as a character list. -/
def natBinStr (n : Nat) : List Char :=
  (natBin n).map digitChar

/-- Line 121: `(w - len(bin(index)[2:])) * "0" + bin(index)[2:]` — the
address as a binary string zero-padded on the left to `w` characters
(Python's negative string multiplier yields the empty string, exactly like
truncated `Nat` subtraction). -/
def paddedBinString (w index : Nat) : List Char :=
  List.replicate (w - (natBinStr index).length) '0' ++ natBinStr index

/-- Numeric counterpart of `paddedBinString`, used in specifications. -/
def padBits (w n : Nat) : List Nat :=
  List.replicate (w - (natBin n).length) 0 ++ natBin n

/-- The `w`-bit most-significant-first binary expansion by arithmetic:
position `off` holds `n / 2 ^ (w - 1 - off) % 2`. -/
def bitsOf (w n : Nat) : List Nat :=
  (List.range w).map (fun off => n / 2 ^ (w - 1 - off) % 2)

/-- Python's `round(w - 0.5)` for an integer `w`: the value is exactly
halfway between `w - 1` and `w`, and float `round` takes the even neighbour
(banker's rounding), so the result is `w` for even `w` and `w - 1` for odd
`w`.  (`w - 0.5` is an exact double for every width a `2 ^ w`-gate circuit
could ever have, so the float detour loses nothing.) -/
def pyRoundHalfEven (w : Nat) : Nat :=
  if w % 2 = 0 then w else w - 1

/-- `range(start, stop, -1)` for `start ≥ stop`: `[start, ..., stop + 1]`. -/
def pyRangeDown (start stop : Nat) : List Nat :=
  (List.range (start - stop)).map (fun i => start - i)

/-- `range(start, start + len)`. -/
def upRange (start len : Nat) : List Nat :=
  (List.range len).map (fun i => start + i)

/-- `range(rows - 1, -1, -1)`: `[rows - 1, ..., 0]`. -/
def countdown (rows : Nat) : List Nat :=
  (List.range rows).map (fun i => rows - 1 - i)

/-- The nested column/row loop as a flat cell list, outer list first. -/
def prodCells : List Nat → List Nat → List (Nat × Nat)
  | [], _ => []
  | ox :: rest, rows => rows.map (fun oy => (ox, oy)) ++ prodCells rest rows

/-- `split = n // round(address_bit_width - 0.5)` (line 117/140); `Nat`
division by zero is `0` here, but both builders raise before using a zero
`split` (see `create_decoder`). -/
def decoderSplit (w : Nat) : Nat :=
  2 ^ w / pyRoundHalfEven w

/-- `n // split`: the number of rows per decode column. -/
def decoderRows (w : Nat) : Nat :=
  2 ^ w / decoderSplit w

/-- The decode-gate grid in the order `create_decoder` places it: columns
`ox` descending from `split + 2` to `3`, rows `oy` ascending from `0`. -/
def decoderCells (w : Nat) : List (Nat × Nat) :=
  prodCells (pyRangeDown (decoderSplit w + 2) 2) (List.range (decoderRows w))

/-- The decode-gate grid in the order `create_lut` wires it: columns `ox`
ascending from `3` to `split + 2`, rows `oy` descending to `0`. -/
def lutCells (w : Nat) : List (Nat × Nat) :=
  prodCells (upRange 3 (decoderSplit w)) (countdown (decoderRows w))

/-- Line 122's comprehension: the input positions of the fan-in wire call
for address `index` — for character `off` of the padded binary string,
`(1 + int(char), w - off - 1, 0)`. -/
def decoderInputPositions (w index : Nat) : List Pos :=
  (paddedBinString w index).enum.map (fun oc =>
    ((1 + (pyIntDigit oc.2 : Int), (w : Int) - (oc.1 : Int) - 1, 0) : Pos))

/-- Lines 144-147: the output positions of the wire call for LUT iteration
`index` — enumerate the REVERSED value string from start `m` and emit
`(0, off - w, 0)` for each `'1'`. -/
def lutOutputPositions (w m : Nat) (f : Nat → Nat → List Char) (index : Nat) :
    List Pos :=
  (List.enumFrom m (f index m).reverse).filterMap (fun oc =>
    if oc.2 = '1' then some (((0 : Int), (oc.1 : Int) - (w : Int), 0) : Pos)
    else none)

/-- A Python `for` loop whose body may raise: stop at the first error. -/
def foldE {σ α : Type} (step : σ → α → Except String σ) : σ → List α → Except String σ
  | s, [] => Except.ok s
  | s, a :: l =>
    match step s a with
    | Except.ok s' => foldE step s' l
    | Except.error e => Except.error e

/-- Lines 111-115, one `oy` iteration: place the raw input AND at
`(0, oy, 0)`, the pass-through AND at `(1, oy, 0)`, the complement NOR at
`(2, oy, 0)`, and fan the raw line out to the other two. -/
def decoderBitStep (c : Circuit) (oy : Nat) : Except String Circuit :=
  let c1 := c.add_logic (LogicGate.make (0, (oy : Int), 0) "and" "eeee22")
  let c2 := c1.add_logic (LogicGate.make (1, (oy : Int), 0) "and" "222222")
  let c3 := c2.add_logic (LogicGate.make (2, (oy : Int), 0) "nor" "222222")
  c3.wire_gates [(0, (oy : Int), 0)] [(1, (oy : Int), 0), (2, (oy : Int), 0)]

/-- Lines 120-124, one grid cell: place the decode AND at `(ox, oy, 0)`,
fan the selected true/complement lines into it, and advance `index`. -/
def decoderCellStep (w : Nat) (ci : Circuit × Nat) (cell : Nat × Nat) :
    Except String (Circuit × Nat) :=
  let c1 := ci.1.add_logic (LogicGate.make ((cell.1 : Int), (cell.2 : Int), 0) "and" "222222")
  Except.map (fun c' => (c', ci.2 + 1))
    (c1.wire_gates (decoderInputPositions w ci.2) [((cell.1 : Int), (cell.2 : Int), 0)])

/-- `create_decoder` (lines 108-125): the per-bit line triples, then — after
`split = 2^w // round(w - 0.5)`, which raises `ZeroDivisionError` when the
rounding yields `0` (that is, for `w ≤ 1`) — one decode AND per grid cell.
Any raised exception propagates as `Except.error`. -/
def create_decoder (address_bit_width : Nat := 8) : Except String Circuit :=
  match foldE decoderBitStep Circuit.empty (List.range address_bit_width) with
  | Except.error e => Except.error e
  | Except.ok dec =>
    if pyRoundHalfEven address_bit_width = 0 then Except.error zeroDivMsg
    else
      match foldE (decoderCellStep address_bit_width) (dec, 0)
          (decoderCells address_bit_width) with
      | Except.error e => Except.error e
      | Except.ok res => Except.ok res.1

/-- `square_func` (lines 128-130): the binary string of `index ** 2`,
left-padded with zeros to `bit_width` characters when shorter (and left as
is when longer — the negative pad count collapses to the empty string). -/
def square_func (index : Nat) (bit_width : Nat) : List Char :=
  let n := index ^ 2
  List.replicate (bit_width - (natBinStr n).length) '0' ++ natBinStr n

/-- Line 138, one output accumulator: an OR gate at `(0, oy, 0)`. -/
def lutOrStep (c : Circuit) (oy : Nat) : Circuit :=
  c.add_logic (LogicGate.make (0, (oy : Int), 0) "or" "22ee22")

/-- Lines 142-149, one grid cell: fan the cell's decode gate out to the
positions selected by the value string, and advance `index`. -/
def lutCellStep (w m : Nat) (f : Nat → Nat → List Char) (ci : Circuit × Nat)
    (cell : Nat × Nat) : Except String (Circuit × Nat) :=
  Except.map (fun c' => (c', ci.2 + 1))
    (ci.1.wire_gates [((cell.1 : Int), (cell.2 : Int), 0)]
      (lutOutputPositions w m f ci.2))

/-- `create_lut` (lines 134-150): build the decoder, add the `m` output OR
gates at `(0, w + j, 0)`, recompute `split` (same expression, so the same
`ZeroDivisionError` condition — dead here because `create_decoder` already
raised), then walk the grid in the reversed order wiring each cell. -/
def create_lut (address_bit_width : Nat := 8) (output_bit_width : Nat := 8)
    (str_function : Nat → Nat → List Char := square_func) : Except String Circuit :=
  match create_decoder address_bit_width with
  | Except.error e => Except.error e
  | Except.ok lut0 =>
    let lut1 := List.foldl lutOrStep lut0 (upRange address_bit_width output_bit_width)
    if pyRoundHalfEven address_bit_width = 0 then Except.error zeroDivMsg
    else
      match foldE (lutCellStep address_bit_width output_bit_width str_function)
          (lut1, 0) (lutCells address_bit_width) with
      | Except.error e => Except.error e
      | Except.ok res => Except.ok res.1

/-- Every connection target in every gate is a valid zero-based index into
the exported record list. -/
def validTargets (c : Circuit) : Bool :=
  c.logic_gates.all (fun g =>
    g.connections.all (fun t => decide (t < c.to_blueprint.length)))

/-- `validTargets` on the result of a build that may have raised (an error
outcome exports nothing and is vacuously fine). -/
def validTargetsE : Except String Circuit → Bool
  | Except.error _ => true
  | Except.ok c => validTargets c

/-- State-passing form of `is_solid`: the method body only reads
`self.index_lut` and performs no assignment, so the post-state is the
unchanged circuit. -/
def Circuit.is_solidCall (c : Circuit) (position : Pos) : Bool × Circuit :=
  (c.is_solid position, c)

/-- State-passing form of `get_block`; as with `is_solid`, the body
performs no assignment. -/
def Circuit.get_blockCall (c : Circuit) (position : Pos) : Option Nat × Circuit :=
  (c.get_block position, c)

/-- Run one `is_solid` query then one `get_block` query at each listed
coordinate, threading the circuit state through every call. -/
def queryIter (c : Circuit) (qs : List Pos) : Circuit :=
  List.foldl (fun s p => ((s.is_solidCall p).2.get_blockCall p).2) c qs

/-- The number a binary character string denotes, most significant first
(`int(s, 2)` on the strings produced here). -/
def bitsVal (s : List Char) : Nat :=
  s.foldl (fun a c => 2 * a + pyIntDigit c) 0

/-- All slot ids stored at leaves of the nested spatial index. -/
def lutVals (lut : List (Int × List (Int × List (Int × Nat)))) : List Nat :=
  lut.flatMap (fun pd => pd.2.flatMap (fun qd => qd.2.map Prod.snd))

/-- The construction invariant of a circuit: every slot id registered in
the spatial index and every connection target is a valid index into
`logic_gates`, and the id counter equals the gate count. -/
def CircuitWF (c : Circuit) : Prop :=
  (∀ i ∈ lutVals c.index_lut, i < c.logic_gates.length) ∧
    (∀ g ∈ c.logic_gates, ∀ t ∈ g.connections, t < c.logic_gates.length) ∧
    c.id_counter = c.logic_gates.length

/-- The slot ids of the output OR accumulators that LUT iteration `i`
wires, for a decoder with `N` decode gates whose OR stage starts at slot
`3 w + N`: bit `j` (least significant = reversed position 0) of the value
string contributes slot `3 w + N + j`. -/
def lutTargetSlots (w N m : Nat) (f : Nat → Nat → List Char) (i : Nat) : List Nat :=
  (List.enum (f i m).reverse).filterMap (fun jc =>
    if jc.2 = '1' then some (3 * w + N + jc.1) else none)

/-- The position of the `k`-th decode gate `create_decoder` places (`k` is
also its address): column `split + 2 - k / rows`, row `k % rows`. -/
def decodeCellPos (w k : Nat) : Pos :=
  (((decoderSplit w + 2 - k / decoderRows w : Nat) : Int),
    ((k % decoderRows w : Nat) : Int), 0)

/-- The decode AND gate as placed (before any LUT wiring). -/
def decodeGateAt (w k : Nat) : LogicGate :=
  LogicGate.make (decodeCellPos w k) "and" "222222"

/-- The output OR accumulator for bit `j`, placed at `(0, w + j, 0)`. -/
def orGateAt (w j : Nat) : LogicGate :=
  LogicGate.make ((0 : Int), ((w + j : Nat) : Int), 0) "or" "22ee22"

/-- An integer grid position on the `z = 0` plane, from natural
coordinates. -/
def posN (x y : Nat) : Pos :=
  ((x : Int), (y : Int), 0)

/-- Circuit state after `t` iterations of the decoder's bit-line loop
(lines 111-115): `3 t` gates and counter `3 t`, line `(x, y, 0)` registered
to slot `3 y + x`, and no other coordinate registered. -/
def DecStage1 (t : Nat) (c : Circuit) : Prop :=
  c.logic_gates.length = 3 * t ∧ c.id_counter = 3 * t ∧
    (∀ x y : Nat, x < 3 → y < t → c.get_block (posN x y) = some (3 * y + x)) ∧
    (∀ p : Pos, (∀ x y : Nat, x < 3 → y < t → p ≠ posN x y) → c.get_block p = none)

/-- Circuit state, with the running `index`, after `t` iterations of the
decoder's grid loop (lines 118-124): the `3 w` line gates plus `t` decode
gates, the decode gate of address `k` sitting in slot `3 w + k` with no
connections yet, and nothing else registered. -/
def DecStage2 (w t : Nat) (s : Circuit × Nat) : Prop :=
  s.2 = t ∧ s.1.logic_gates.length = 3 * w + t ∧ s.1.id_counter = 3 * w + t ∧
    (∀ x y : Nat, x < 3 → y < w → s.1.get_block (posN x y) = some (3 * y + x)) ∧
    (∀ k : Nat, k < t → s.1.get_block (decodeCellPos w k) = some (3 * w + k)) ∧
    (∀ p : Pos, (∀ x y : Nat, x < 3 → y < w → p ≠ posN x y) →
      (∀ k : Nat, k < t → p ≠ decodeCellPos w k) → s.1.get_block p = none) ∧
    (∀ k : Nat, k < t → s.1.logic_gates[3 * w + k]? = some (decodeGateAt w k))

/-- Circuit state after the first `j` output OR accumulators of the LUT
(line 138) have been appended to a finished `w`-bit decoder with `N`
decode gates. -/
def LutOrStage (w N j : Nat) (c : Circuit) : Prop :=
  c.logic_gates.length = 3 * w + N + j ∧ c.id_counter = 3 * w + N + j ∧
    (∀ k : Nat, k < N → c.get_block (decodeCellPos w k) = some (3 * w + k)) ∧
    (∀ j' : Nat, j' < j → c.get_block (posN 0 (w + j')) = some (3 * w + N + j')) ∧
    (∀ p : Pos, (∀ x y : Nat, x < 3 → y < w → p ≠ posN x y) →
      (∀ k : Nat, k < N → p ≠ decodeCellPos w k) →
      (∀ j' : Nat, j' < j → p ≠ posN 0 (w + j')) → c.get_block p = none) ∧
    (∀ k : Nat, k < N → c.logic_gates[3 * w + k]? = some (decodeGateAt w k)) ∧
    (∀ j' : Nat, j' < j → c.logic_gates[3 * w + N + j']? = some (orGateAt w j'))

/-- Circuit state, with the running `index`, after the first `t` iterations
of the LUT wiring loop (lines 141-149) over a circuit whose spatial index
is that of `c0`: iteration `u` wires the decode gate of address
`N - 1 - u`, so after `t` iterations exactly the addresses `k ≥ N - t`
carry their targets. -/
def LutWireStage (w N m : Nat) (f : Nat → Nat → List Char) (c0 : Circuit)
    (t : Nat) (s : Circuit × Nat) : Prop :=
  s.2 = t ∧ s.1.index_lut = c0.index_lut ∧
    s.1.logic_gates.length = 3 * w + N + m ∧
    (∀ k : Nat, k < N → s.1.logic_gates[3 * w + k]? =
      (if N - t ≤ k then
        some { decodeGateAt w k with
                connections := lutTargetSlots w N m f (N - 1 - k) }
      else some (decodeGateAt w k))) ∧
    (∀ j : Nat, j < m → s.1.logic_gates[3 * w + N + j]? = some (orGateAt w j))

/-! ### Association-list facts -/

theorem afind_aset_self {α : Type} (l : List (Int × α)) (k : Int) (v : α) :
    afind (aset l k v) k = some v := by
  induction l with
  | nil => simp [aset, afind]
  | cons hd tl ih =>
    by_cases hk : hd.1 = k
    · simp [aset, afind, hk]
    · simpa [aset, afind, hk] using ih

theorem aset_of_afind_eq {α : Type} (l : List (Int × α)) (k : Int) (v : α)
    (h : afind l k = some v) : aset l k v = l := by
  induction l with
  | nil => simp [afind] at h
  | cons hd tl ih =>
    obtain ⟨a, b⟩ := hd
    by_cases hk : a = k
    · simp [afind, hk] at h
      simp [aset, hk, ← h]
    · simp [afind, hk] at h
      simp [aset, hk, ih h]

theorem afind_mem {α : Type} {l : List (Int × α)} {k : Int} {v : α}
    (h : afind l k = some v) : (k, v) ∈ l := by
  induction l with
  | nil => simp [afind] at h
  | cons hd tl ih =>
    obtain ⟨a, b⟩ := hd
    by_cases hk : a = k
    · simp [afind, hk] at h
      subst hk
      subst h
      exact List.mem_cons_self _ _
    · simp [afind, hk] at h
      exact List.mem_cons_of_mem _ (ih h)

theorem aset_mem {α : Type} {l : List (Int × α)} {k : Int} {v : α}
    {p : Int × α} (h : p ∈ aset l k v) : p ∈ l ∨ p.2 = v := by
  induction l with
  | nil => simp [aset] at h; simp [h]
  | cons hd tl ih =>
    by_cases hk : hd.1 = k
    · simp [aset, hk] at h
      rcases h with h | h
      · right; simp [h]
      · left; exact List.mem_cons_of_mem _ h
    · simp [aset, hk] at h
      rcases h with h | h
      · left; simp [h]
      · rcases ih h with h' | h'
        · left; exact List.mem_cons_of_mem _ h'
        · right; exact h'

/-! ### `modifyIdx` facts -/

theorem modifyIdx_length (l : List LogicGate) (i : Nat) (f : LogicGate → LogicGate) :
    (modifyIdx l i f).length = l.length := by
  induction l generalizing i with
  | nil => rfl
  | cons hd tl ih =>
    cases i with
    | zero => simp [modifyIdx]
    | succ n => simp [modifyIdx, ih]

theorem modifyIdx_mem {l : List LogicGate} {i : Nat} {f : LogicGate → LogicGate}
    {g : LogicGate} (h : g ∈ modifyIdx l i f) : g ∈ l ∨ ∃ g₀ ∈ l, g = f g₀ := by
  induction l generalizing i with
  | nil => simp [modifyIdx] at h
  | cons hd tl ih =>
    cases i with
    | zero =>
      simp [modifyIdx] at h
      rcases h with h | h
      · right; exact ⟨hd, List.mem_cons_self _ _, h⟩
      · left; exact List.mem_cons_of_mem _ h
    | succ n =>
      simp [modifyIdx] at h
      rcases h with h | h
      · left; simp [h]
      · rcases ih h with h' | ⟨g₀, hg₀, hgf⟩
        · left; exact List.mem_cons_of_mem _ h'
        · right; exact ⟨g₀, List.mem_cons_of_mem _ hg₀, hgf⟩

/-! ### Wiring preserves the gate count, the spatial index and the counter -/

theorem isErrB_ok {ε α : Type} (a : α) : isErrB (Except.ok a : Except ε α) = false := rfl

theorem isErrB_error {ε α : Type} (e : ε) : isErrB (Except.error e : Except ε α) = true := rfl

theorem connectBlocks_parts (c : Circuit) (p q : Pos) :
    (c.connectBlocks p q).logic_gates.length = c.logic_gates.length ∧
      (c.connectBlocks p q).index_lut = c.index_lut ∧
      (c.connectBlocks p q).id_counter = c.id_counter := by
  unfold Circuit.connectBlocks
  split
  · simp [modifyIdx_length]
  · simp

theorem wireStep_parts (c : Circuit) (pq : Pos × Pos) :
    (c.wireStep pq).logic_gates.length = c.logic_gates.length ∧
      (c.wireStep pq).index_lut = c.index_lut ∧
      (c.wireStep pq).id_counter = c.id_counter := by
  unfold Circuit.wireStep
  split
  · exact connectBlocks_parts c pq.1 pq.2
  · simp

/-- Invariant preservation through a plain `foldl` loop. -/
theorem foldl_inv {σ α : Type} {Inv : σ → Prop} (f : σ → α → σ) (l : List α)
    (h : ∀ s a, a ∈ l → Inv s → Inv (f s a)) :
    ∀ s, Inv s → Inv (List.foldl f s l) := by
  induction l with
  | nil => intro s hs; simpa using hs
  | cons hd tl ih =>
    intro s hs
    simp only [List.foldl_cons]
    exact ih (fun s' a ha => h s' a (List.mem_cons_of_mem _ ha))
      _ (h s hd (List.mem_cons_self _ _) hs)

/-- Folding any step that preserves the gate count, the spatial index and
the id counter preserves all three. -/
theorem foldl_parts {α : Type} (step : Circuit → α → Circuit)
    (hstep : ∀ s q, (step s q).logic_gates.length = s.logic_gates.length ∧
      (step s q).index_lut = s.index_lut ∧ (step s q).id_counter = s.id_counter)
    (l : List α) (c : Circuit) :
    (List.foldl step c l).logic_gates.length = c.logic_gates.length ∧
      (List.foldl step c l).index_lut = c.index_lut ∧
      (List.foldl step c l).id_counter = c.id_counter := by
  induction l generalizing c with
  | nil => exact ⟨rfl, rfl, rfl⟩
  | cons hd tl ih =>
    simp only [List.foldl_cons]
    obtain ⟨h1, h2, h3⟩ := hstep c hd
    obtain ⟨g1, g2, g3⟩ := ih (step c hd)
    exact ⟨g1.trans h1, g2.trans h2, g3.trans h3⟩

/-- Any successful `wire_gates` call leaves the gate count, the spatial
index and the id counter untouched (it only edits `connections` lists). -/
theorem wire_gates_ok_parts (c : Circuit) (ins outs : List Pos) (c' : Circuit)
    (h : c.wire_gates ins outs = Except.ok c') :
    c'.logic_gates.length = c.logic_gates.length ∧
      c'.index_lut = c.index_lut ∧ c'.id_counter = c.id_counter := by
  unfold Circuit.wire_gates at h
  split at h
  · cases h
    exact foldl_parts Circuit.wireStep wireStep_parts _ c
  · split at h
    · split at h
      · cases h; exact ⟨rfl, rfl, rfl⟩
      · cases h
        refine foldl_parts _ (fun s' q => ?_) _ c
        split
        · exact connectBlocks_parts s' _ _
        · exact ⟨rfl, rfl, rfl⟩
    · split at h
      · cases h; exact ⟨rfl, rfl, rfl⟩
      · cases h
        refine foldl_parts _ (fun s' q => ?_) _ c
        split
        · exact connectBlocks_parts s' _ _
        · exact ⟨rfl, rfl, rfl⟩
    · cases h


/-- With a singleton output list, `wire_gates` never raises: the call is
caught by the equal-length branch (singleton input) or the fan-in branch. -/
theorem wire_gates_out_singleton_ok (c : Circuit) (ins : List Pos) (q : Pos) :
    ∃ c', c.wire_gates ins [q] = Except.ok c' := by
  rcases ins with _ | ⟨p, _ | ⟨p2, rest⟩⟩ <;>
    simp only [Circuit.wire_gates] <;> split
  · exact ⟨_, rfl⟩
  · split <;> exact ⟨_, rfl⟩
  · exact ⟨_, rfl⟩
  · split <;> exact ⟨_, rfl⟩
  · exact ⟨_, rfl⟩
  · split <;> exact ⟨_, rfl⟩

/-- With a singleton input list, `wire_gates` never raises either. -/
theorem wire_gates_in_singleton_ok (c : Circuit) (p : Pos) (outs : List Pos) :
    ∃ c', c.wire_gates [p] outs = Except.ok c' := by
  rcases outs with _ | ⟨q, _ | ⟨q2, rest⟩⟩ <;>
    simp only [Circuit.wire_gates] <;> split
  · exact ⟨_, rfl⟩
  · split <;> exact ⟨_, rfl⟩
  · exact ⟨_, rfl⟩
  · split <;> exact ⟨_, rfl⟩
  · exact ⟨_, rfl⟩
  · split <;> exact ⟨_, rfl⟩

/-- With equal-length lists, `wire_gates` is the pairwise fold and never
raises. -/
theorem wire_gates_eq_len (c : Circuit) (ins outs : List Pos)
    (h : ins.length = outs.length) :
    c.wire_gates ins outs = Except.ok (List.foldl Circuit.wireStep c (ins.zip outs)) := by
  unfold Circuit.wire_gates
  simp [h]

/-- When the lengths differ and neither list is a singleton, `wire_gates`
falls through to the raising arm. -/
theorem wire_gates_arity_error (c : Circuit) (ins outs : List Pos)
    (h1 : ins.length ≠ outs.length) (h2 : ins.length ≠ 1) (h3 : outs.length ≠ 1) :
    c.wire_gates ins outs = Except.error arityMsg := by
  rcases ins with _ | ⟨p, _ | ⟨p2, ins'⟩⟩
  · rcases outs with _ | ⟨q, _ | ⟨q2, outs'⟩⟩
    · simp at h1
    · simp at h3
    · unfold Circuit.wire_gates
      split
      · next hh => exact absurd hh h1
      · rfl
  · simp at h2
  · rcases outs with _ | ⟨q, _ | ⟨q2, outs'⟩⟩
    · unfold Circuit.wire_gates
      split
      · next hh => exact absurd hh h1
      · rfl
    · simp at h3
    · unfold Circuit.wire_gates
      split
      · next hh => exact absurd hh h1
      · rfl

/-- `wire_gates` raises exactly when the two lists have different lengths
and neither has length one (in particular an empty list against a
multi-element list DOES raise). -/
theorem wire_gates_error_char (c : Circuit) (ins outs : List Pos) :
    isErrB (c.wire_gates ins outs) = true ↔
      (ins.length ≠ outs.length ∧ ins.length ≠ 1 ∧ outs.length ≠ 1) := by
  constructor
  · intro h
    by_cases e1 : ins.length = outs.length
    · rw [wire_gates_eq_len c ins outs e1] at h
      simp [isErrB] at h
    · by_cases e2 : ins.length = 1
      · obtain ⟨p, rfl⟩ := List.length_eq_one.mp e2
        obtain ⟨c', hc⟩ := wire_gates_in_singleton_ok c p outs
        rw [hc] at h
        simp [isErrB] at h
      · by_cases e3 : outs.length = 1
        · obtain ⟨q, rfl⟩ := List.length_eq_one.mp e3
          obtain ⟨c', hc⟩ := wire_gates_out_singleton_ok c ins q
          rw [hc] at h
          simp [isErrB] at h
        · exact ⟨e1, e2, e3⟩
  · rintro ⟨e1, e2, e3⟩
    rw [wire_gates_arity_error c ins outs e1 e2 e3]
    rfl

/-! ### Binary digit facts -/

theorem binDigitsF_zero (f : Nat) : binDigitsF f 0 = [] := by
  cases f <;> simp [binDigitsF]

/-- Any fuel of at least `n` computes the same digit list. -/
theorem binDigitsF_fuel (n : Nat) : ∀ f, n ≤ f → binDigitsF f n = binDigitsF n n := by
  induction n using Nat.strong_induction_on with
  | _ n ih =>
    intro f hf
    match n, f with
    | 0, f => rw [binDigitsF_zero, binDigitsF_zero]
    | k + 1, f' + 1 =>
      simp only [binDigitsF, if_neg (Nat.succ_ne_zero k)]
      rw [ih ((k + 1) / 2) (by omega) f' (by omega),
        ih ((k + 1) / 2) (by omega) k (by omega)]

theorem natBin_zero : natBin 0 = [0] := rfl

theorem natBin_one : natBin 1 = [1] := rfl

/-- Peeling the least significant digit for `n ≥ 2`. -/
theorem natBin_rec (n : Nat) (h : 2 ≤ n) : natBin n = natBin (n / 2) ++ [n % 2] := by
  obtain ⟨k, rfl⟩ : ∃ k, n = k + 1 := ⟨n - 1, by omega⟩
  unfold natBin
  rw [if_neg (Nat.succ_ne_zero k), if_neg (by omega : ¬(k + 1) / 2 = 0)]
  simp only [binDigitsF, if_neg (Nat.succ_ne_zero k)]
  rw [binDigitsF_fuel ((k + 1) / 2) k (by omega)]

theorem binDigitsF_lt_two (f : Nat) : ∀ n, ∀ d ∈ binDigitsF f n, d < 2 := by
  induction f with
  | zero => intro n d hd; simp [binDigitsF] at hd
  | succ f ih =>
    intro n d hd
    simp only [binDigitsF] at hd
    split at hd
    · simp at hd
    · rcases List.mem_append.mp hd with h | h
      · exact ih _ d h
      · simp at h; omega

theorem natBin_lt_two (n : Nat) : ∀ d ∈ natBin n, d < 2 := by
  unfold natBin
  split
  · intro d hd; simp at hd; omega
  · exact binDigitsF_lt_two n n

/-- The numeric value accumulated over a digit list. -/
theorem binDigitsF_val (n : Nat) : ∀ f acc, n ≤ f →
    List.foldl (fun a b => 2 * a + b) acc (binDigitsF f n)
      = acc * 2 ^ (binDigitsF f n).length + n := by
  induction n using Nat.strong_induction_on with
  | _ n ih =>
    intro f acc hf
    match n, f with
    | 0, f => rw [binDigitsF_zero]; simp
    | k + 1, f' + 1 =>
      simp only [binDigitsF, if_neg (Nat.succ_ne_zero k)]
      rw [List.foldl_append, List.length_append]
      rw [ih ((k + 1) / 2) (by omega) f' acc (by omega)]
      simp only [List.foldl_cons, List.foldl_nil, List.length_cons, List.length_nil]
      rw [pow_succ, ← Nat.mul_assoc]
      generalize acc * 2 ^ (binDigitsF f' ((k + 1) / 2)).length = B
      omega

theorem natBin_val (n : Nat) :
    List.foldl (fun a b => 2 * a + b) 0 (natBin n) = n := by
  unfold natBin
  split
  · next h => subst h; rfl
  · next h =>
    rw [binDigitsF_val n n 0 (Nat.le_refl n)]
    simp

/-- Peeling the least significant digit of the padded expansion. -/
theorem padBits_rec (w : Nat) (hw : 1 ≤ w) (m : Nat) :
    padBits (w + 1) m = padBits w (m / 2) ++ [m % 2] := by
  obtain ⟨v, rfl⟩ : ∃ v, w = v + 1 := ⟨w - 1, by omega⟩
  by_cases h0 : m = 0
  · subst h0
    show List.replicate (v + 1 + 1 - (natBin 0).length) 0 ++ natBin 0 = _
    rw [show (0 : Nat) / 2 = 0 from rfl, show (0 : Nat) % 2 = 0 from rfl]
    show _ = List.replicate (v + 1 - (natBin 0).length) 0 ++ natBin 0 ++ [0]
    rw [natBin_zero]
    simp only [List.length_cons, List.length_nil, Nat.add_sub_cancel]
    rw [List.replicate_succ' v 0]
  · by_cases h1 : m = 1
    · subst h1
      show List.replicate (v + 1 + 1 - (natBin 1).length) 0 ++ natBin 1 = _
      rw [show (1 : Nat) / 2 = 0 from rfl, show (1 : Nat) % 2 = 1 from rfl]
      show _ = List.replicate (v + 1 - (natBin 0).length) 0 ++ natBin 0 ++ [1]
      rw [natBin_zero, natBin_one]
      simp only [List.length_cons, List.length_nil, Nat.add_sub_cancel]
      rw [List.replicate_succ' v 0]
    · have h2 : 2 ≤ m := by omega
      unfold padBits
      rw [natBin_rec m h2]
      simp only [List.length_append, List.length_cons, List.length_nil]
      rw [show v + 1 + 1 - ((natBin (m / 2)).length + (0 + 1))
          = v + 1 - (natBin (m / 2)).length from by omega]
      rw [List.append_assoc]

/-- Peeling the least significant digit of the arithmetic expansion. -/
theorem bitsOf_step (w m : Nat) : bitsOf (w + 1) m = bitsOf w (m / 2) ++ [m % 2] := by
  unfold bitsOf
  rw [List.range_succ, List.map_append]
  congr 1
  · apply List.map_congr_left
    intro i hi
    have hi' : i < w := List.mem_range.mp hi
    rw [show w + 1 - 1 - i = (w - 1 - i) + 1 from by omega]
    rw [pow_succ, Nat.mul_comm, ← Nat.div_div_eq_div_mul]
  · simp

/-- For `m < 2 ^ w` the padded digit string IS the `w`-bit binary expansion
of `m`, most significant character first. -/
theorem padBits_eq_bitsOf : ∀ w, 1 ≤ w → ∀ m, m < 2 ^ w → padBits w m = bitsOf w m := by
  intro w
  induction w with
  | zero => omega
  | succ k ih =>
    intro _ m hm
    cases k with
    | zero =>
      interval_cases m
      · decide
      · decide
    | succ j =>
      have hm2 : m / 2 < 2 ^ (j + 1) := by
        have : (2 : Nat) ^ (j + 1 + 1) = 2 ^ (j + 1) * 2 := pow_succ 2 (j + 1)
        omega
      rw [padBits_rec (j + 1) (by omega) m, bitsOf_step (j + 1) m,
        ih (by omega) (m / 2) hm2]

/-- The padded binary string is the digit-character image of `padBits`. -/
theorem paddedBinString_eq_map (w idx : Nat) :
    paddedBinString w idx = (padBits w idx).map digitChar := by
  unfold paddedBinString padBits natBinStr
  rw [List.map_append, List.map_replicate, List.length_map]
  rfl

theorem pyIntDigit_digitChar (d : Nat) (h : d < 2) :
    pyIntDigit (digitChar d) = d := by
  interval_cases d <;> decide

/-- Position `off` of the fan-in input list built on line 122: the x
coordinate is `2` (the complement/NOR line) when the bit of `index` at
most-significant-first position `off` is `1`, and `1` (the true line)
when it is `0`; the y coordinate is `w - off - 1`. -/
theorem decoderInputPositions_get (w idx off : Nat) (hw : 1 ≤ w)
    (hidx : idx < 2 ^ w) (hoff : off < w) :
    (decoderInputPositions w idx)[off]? =
      some (((if idx / 2 ^ (w - 1 - off) % 2 = 1 then 2 else 1 : Int),
        (w : Int) - (off : Int) - 1, 0) : Pos) := by
  unfold decoderInputPositions
  rw [paddedBinString_eq_map, padBits_eq_bitsOf w hw idx hidx]
  unfold bitsOf
  rw [List.map_map]
  rw [List.getElem?_map, List.getElem?_enum, List.getElem?_map,
    List.getElem?_range hoff]
  rcases Nat.mod_two_eq_zero_or_one (idx / 2 ^ (w - 1 - off)) with hb | hb <;>
    rw [hb] <;>
      simp [digitChar, pyIntDigit, hb]

/-! ### Value of the binary strings -/

theorem bitsVal_natBinStr (n : Nat) : bitsVal (natBinStr n) = n := by
  unfold bitsVal natBinStr
  rw [List.foldl_map]
  rw [List.foldl_ext _ (fun a b => 2 * a + b) 0
    (fun a b hb => by rw [pyIntDigit_digitChar b (natBin_lt_two n b hb)])]
  exact natBin_val n

theorem foldl_zero_pad (k : Nat) :
    List.foldl (fun a c => 2 * a + pyIntDigit c) 0 (List.replicate k '0') = 0 := by
  induction k with
  | zero => rfl
  | succ k ih =>
    rw [List.replicate_succ, List.foldl_cons]
    simpa [pyIntDigit] using ih

/-- The left zero padding never changes the denoted value. -/
theorem bitsVal_pad (k : Nat) (s : List Char) :
    bitsVal (List.replicate k '0' ++ s) = bitsVal s := by
  unfold bitsVal
  rw [List.foldl_append, foldl_zero_pad]

/-! ### Queries and the spatial index -/

theorem is_solid_eq_isSome (c : Circuit) (p : Pos) :
    c.is_solid p = (c.get_block p).isSome := by
  unfold Circuit.is_solid Circuit.get_block
  cases h1 : afind c.index_lut p.1 with
  | none => simp [h1, afind]
  | some d2 =>
    cases h2 : afind d2 p.2.1 with
    | none => simp [h1, h2, afind]
    | some d3 =>
      cases h3 : afind d3 p.2.2 <;> simp [h1, h2, h3]

/-- Re-placing a gate at an occupied coordinate appends the gate but leaves
the whole spatial index unchanged (the leaf write is guarded by `is None`,
so the FIRST registration survives); only the counter advances. -/
theorem add_logic_occupied (c : Circuit) (g : LogicGate)
    (h : c.is_solid g.position = true) :
    (c.add_logic g).logic_gates = c.logic_gates ++ [g] ∧
      (c.add_logic g).index_lut = c.index_lut ∧
      (c.add_logic g).id_counter = c.id_counter + 1 := by
  obtain ⟨d2, h1⟩ : ∃ d2, afind c.index_lut g.position.1 = some d2 := by
    cases hx : afind c.index_lut g.position.1
    · simp [Circuit.is_solid, hx] at h
    · exact ⟨_, rfl⟩
  obtain ⟨d3, h2⟩ : ∃ d3, afind d2 g.position.2.1 = some d3 := by
    cases hx : afind d2 g.position.2.1
    · simp [Circuit.is_solid, h1, hx] at h
    · exact ⟨_, rfl⟩
  obtain ⟨i, h3⟩ : ∃ i, afind d3 g.position.2.2 = some i := by
    cases hx : afind d3 g.position.2.2
    · simp [Circuit.is_solid, h1, h2, hx] at h
    · exact ⟨_, rfl⟩
  refine ⟨rfl, ?_, rfl⟩
  show (c.add_logic g).index_lut = c.index_lut
  unfold Circuit.add_logic Circuit.generate_lut
  simp only [h1, h2, h3, Option.isNone_some, Bool.false_eq_true, if_false,
    Option.getD_some]
  rw [aset_of_afind_eq d2 g.position.2.1 d3 h2,
    aset_of_afind_eq c.index_lut g.position.1 d2 h1]

/-- The two query methods read the circuit and hand back the state they
were given, however often they are called. -/
theorem queryIter_id (c : Circuit) (qs : List Pos) : queryIter c qs = c := by
  unfold queryIter
  induction qs with
  | nil => rfl
  | cons hd tl ih => rw [List.foldl_cons]; exact ih

/-! ### Success and gate count of the builder loops -/

theorem add_logic_gates (c : Circuit) (g : LogicGate) :
    (c.add_logic g).logic_gates = c.logic_gates ++ [g] := rfl

theorem add_logic_length (c : Circuit) (g : LogicGate) :
    (c.add_logic g).logic_gates.length = c.logic_gates.length + 1 := by
  rw [add_logic_gates]
  simp

/-- A loop whose every iteration succeeds and grows the measure by `k`
succeeds as a whole and grows it by `k` per element. -/
theorem foldE_count {σ α : Type} (meas : σ → Nat) (k : Nat)
    (step : σ → α → Except String σ) (l : List α)
    (h : ∀ s a, a ∈ l → ∃ s', step s a = Except.ok s' ∧ meas s' = meas s + k) :
    ∀ s, ∃ s', foldE step s l = Except.ok s' ∧ meas s' = meas s + k * l.length := by
  induction l with
  | nil => intro s; exact ⟨s, rfl, by simp⟩
  | cons hd tl ih =>
    intro s
    obtain ⟨s1, hs1, hm1⟩ := h s hd (List.mem_cons_self _ _)
    obtain ⟨s2, hs2, hm2⟩ := ih (fun s' a ha => h s' a (List.mem_cons_of_mem _ ha)) s1
    refine ⟨s2, ?_, ?_⟩
    · simp only [foldE, hs1]
      exact hs2
    · rw [hm2, hm1, List.length_cons]
      ring

theorem decoderBitStep_ok (c : Circuit) (oy : Nat) :
    ∃ c', decoderBitStep c oy = Except.ok c' ∧
      c'.logic_gates.length = c.logic_gates.length + 3 := by
  unfold decoderBitStep
  obtain ⟨c', hc⟩ := wire_gates_in_singleton_ok
    (((c.add_logic (LogicGate.make (0, (oy : Int), 0) "and" "eeee22")).add_logic
      (LogicGate.make (1, (oy : Int), 0) "and" "222222")).add_logic
      (LogicGate.make (2, (oy : Int), 0) "nor" "222222"))
    (0, (oy : Int), 0) [(1, (oy : Int), 0), (2, (oy : Int), 0)]
  refine ⟨c', hc, ?_⟩
  obtain ⟨hl, -, -⟩ := wire_gates_ok_parts _ _ _ _ hc
  rw [hl, add_logic_length, add_logic_length, add_logic_length]

theorem decoderCellStep_ok (w : Nat) (ci : Circuit × Nat) (cell : Nat × Nat) :
    ∃ ci', decoderCellStep w ci cell = Except.ok ci' ∧
      ci'.1.logic_gates.length = ci.1.logic_gates.length + 1 := by
  unfold decoderCellStep
  obtain ⟨c', hc⟩ := wire_gates_out_singleton_ok
    (ci.1.add_logic (LogicGate.make ((cell.1 : Int), (cell.2 : Int), 0) "and" "222222"))
    (decoderInputPositions w ci.2) ((cell.1 : Int), (cell.2 : Int), 0)
  refine ⟨(c', ci.2 + 1), ?_, ?_⟩
  · simp only [hc]
    rfl
  · obtain ⟨hl, -, -⟩ := wire_gates_ok_parts _ _ _ _ hc
    rw [hl, add_logic_length]

theorem prodCells_length (cols rows : List Nat) :
    (prodCells cols rows).length = cols.length * rows.length := by
  induction cols with
  | nil => simp [prodCells]
  | cons hd tl ih =>
    simp only [prodCells, List.length_append, List.length_map, List.length_cons, ih]
    ring

theorem decoderCells_length (w : Nat) :
    (decoderCells w).length = decoderSplit w * decoderRows w := by
  unfold decoderCells
  rw [prodCells_length]
  unfold pyRangeDown
  simp

/-- For every width `w ≥ 2`, `create_decoder` terminates normally with
`3 w` line gates plus `split * (2^w / split)` decode gates. -/
theorem create_decoder_ok_count (w : Nat) (hw : 2 ≤ w) :
    ∃ c, create_decoder w = Except.ok c ∧
      c.logic_gates.length = 3 * w + decoderSplit w * decoderRows w := by
  have hr : ¬pyRoundHalfEven w = 0 := by
    unfold pyRoundHalfEven
    split <;> omega
  obtain ⟨dec, hdec, hlen⟩ := foldE_count (fun c => c.logic_gates.length) 3
    decoderBitStep (List.range w) (fun s a _ => decoderBitStep_ok s a) Circuit.empty
  obtain ⟨ci, hci, hlen2⟩ := foldE_count (fun ci : Circuit × Nat => ci.1.logic_gates.length) 1
    (decoderCellStep w) (decoderCells w) (fun s a _ => decoderCellStep_ok w s a) (dec, 0)
  refine ⟨ci.1, ?_, ?_⟩
  · simp only [create_decoder, hdec, hci, hr, if_false]
  · rw [hlen2, hlen, decoderCells_length]
    simp only [Circuit.empty, List.length_nil, List.length_range, Nat.zero_add, Nat.one_mul]

/-! ### The LUT loop walks the decode grid in reverse decoder order -/

theorem countdown_succ (n : Nat) : countdown (n + 1) = n :: countdown n := by
  unfold countdown
  rw [List.range_succ_eq_map, List.map_cons, List.map_map]
  congr 1
  apply List.map_congr_left
  intro i hi
  simp only [Function.comp_apply, Nat.succ_eq_add_one]
  omega

theorem reverse_range (n : Nat) : (List.range n).reverse = countdown n := by
  induction n with
  | zero => rfl
  | succ k ih =>
    rw [List.range_succ, List.reverse_append, List.reverse_cons, List.reverse_nil,
      List.nil_append, List.singleton_append, ih, countdown_succ]

theorem pyRangeDown_reverse (s : Nat) : (pyRangeDown (s + 2) 2).reverse = upRange 3 s := by
  unfold pyRangeDown upRange
  rw [show s + 2 - 2 = s from by omega]
  rw [← List.map_reverse, reverse_range]
  unfold countdown
  rw [List.map_map]
  apply List.map_congr_left
  intro i hi
  have := List.mem_range.mp hi
  simp only [Function.comp_apply]
  omega

theorem prodCells_append_col (cols : List Nat) (ox : Nat) (rows : List Nat) :
    prodCells (cols ++ [ox]) rows
      = prodCells cols rows ++ rows.map (fun oy => (ox, oy)) := by
  induction cols with
  | nil => simp [prodCells]
  | cons hd tl ih =>
    simp only [List.cons_append, prodCells, List.append_eq, ih, List.append_assoc]

theorem prodCells_reverse (cols rows : List Nat) :
    (prodCells cols rows).reverse = prodCells cols.reverse rows.reverse := by
  induction cols with
  | nil => rfl
  | cons hd tl ih =>
    simp only [prodCells, List.reverse_append, List.reverse_cons]
    rw [ih, prodCells_append_col, ← List.map_reverse]

/-- The cell traversal of `create_lut` is exactly the reverse of the cell
traversal of `create_decoder` (columns and rows both flip). -/
theorem lutCells_eq_reverse (w : Nat) : lutCells w = (decoderCells w).reverse := by
  unfold lutCells decoderCells
  rw [prodCells_reverse, pyRangeDown_reverse, reverse_range]

/-! ### Shape of the LUT wiring targets -/

theorem enumFrom_add {α : Type} (l : List α) : ∀ m n,
    List.enumFrom (m + n) l = (List.enumFrom m l).map (fun p => (p.1 + n, p.2)) := by
  induction l with
  | nil => intro m n; rfl
  | cons hd tl ih =>
    intro m n
    simp only [List.enumFrom, List.map_cons]
    rw [show m + n + 1 = (m + 1) + n from by omega, ih (m + 1) n]

theorem lutOutputPositions_double (w : Nat) (f : Nat → Nat → List Char) (idx : Nat) :
    lutOutputPositions w (2 * w) f idx =
      (List.enum (f idx (2 * w)).reverse).filterMap (fun jc =>
        if jc.2 = '1' then some (((0 : Int), (w : Int) + (jc.1 : Int), 0) : Pos)
        else none) := by
  unfold lutOutputPositions
  have he : List.enumFrom (2 * w) (f idx (2 * w)).reverse
      = (List.enum (f idx (2 * w)).reverse).map (fun p => (p.1 + 2 * w, p.2)) := by
    have h0 := enumFrom_add (f idx (2 * w)).reverse 0 (2 * w)
    simpa [List.enum] using h0
  rw [he, List.filterMap_map]
  apply List.filterMap_congr
  intro x hx
  rcases x with ⟨j, ch⟩
  by_cases hc : ch = '1'
  · simp only [Function.comp_apply, hc, if_pos rfl]
    congr 2
    push_cast
    ring_nf
  · simp [Function.comp, hc]

/-! ### The construction invariant -/

theorem mem_lutVals_of {lut : List (Int × List (Int × List (Int × Nat)))}
    {pd : Int × List (Int × List (Int × Nat))} {qd : Int × List (Int × Nat)}
    {e : Int × Nat} (h1 : pd ∈ lut) (h2 : qd ∈ pd.2) (h3 : e ∈ qd.2) :
    e.2 ∈ lutVals lut := by
  unfold lutVals
  simp only [List.mem_flatMap, List.mem_map]
  exact ⟨pd, h1, qd, h2, e, h3, rfl⟩

/-- Every leaf id of the updated spatial index is an old leaf id or the
current counter value. -/
theorem generate_lut_lutVals (c : Circuit) (pos : Pos) :
    ∀ i ∈ lutVals (c.generate_lut pos).index_lut,
      i ∈ lutVals c.index_lut ∨ i = c.id_counter := by
  unfold Circuit.generate_lut
  rcases hpx : afind c.index_lut pos.1 with _ | d2x
  · simp only [hpx, Option.isNone_none, if_true, afind_aset_self, Option.getD_some]
    simp only [afind, aset, Option.isNone_none, if_true, Option.getD_some, if_pos rfl]
    intro i hi
    simp only [lutVals, List.mem_flatMap, List.mem_map] at hi
    obtain ⟨pd, hpd, qd, hqd, e, he, hei⟩ := hi
    rcases aset_mem hpd with hin | hval
    · rcases aset_mem hin with hin' | hval'
      · exact Or.inl (hei ▸ mem_lutVals_of hin' hqd he)
      · rw [hval'] at hqd; simp at hqd
    · rw [hval] at hqd
      simp only [List.mem_singleton] at hqd
      rw [hqd] at he
      simp only [List.mem_singleton] at he
      rw [he] at hei
      exact Or.inr hei.symm
  · simp only [hpx, Option.isNone_some, Bool.false_eq_true, if_false, Option.getD_some]
    rcases hpy : afind d2x pos.2.1 with _ | d3x
    · simp only [hpy, Option.isNone_none, if_true, afind_aset_self, Option.getD_some]
      simp only [afind, aset, Option.isNone_none, if_true, Option.getD_some, if_pos rfl]
      intro i hi
      simp only [lutVals, List.mem_flatMap, List.mem_map] at hi
      obtain ⟨pd, hpd, qd, hqd, e, he, hei⟩ := hi
      rcases aset_mem hpd with hin | hval
      · exact Or.inl (hei ▸ mem_lutVals_of hin hqd he)
      · rw [hval] at hqd
        rcases aset_mem hqd with hin' | hval'
        · rcases aset_mem hin' with hin'' | hval''
          · exact Or.inl (hei ▸ mem_lutVals_of (afind_mem hpx) hin'' he)
          · rw [hval''] at he; simp at he
        · rw [hval'] at he
          simp only [List.mem_singleton] at he
          rw [he] at hei
          exact Or.inr hei.symm
    · simp only [hpy, Option.isNone_some, Bool.false_eq_true, if_false, Option.getD_some]
      rcases hpz : afind d3x pos.2.2 with _ | vz
      · simp only [hpz, Option.isNone_none, if_true]
        intro i hi
        simp only [lutVals, List.mem_flatMap, List.mem_map] at hi
        obtain ⟨pd, hpd, qd, hqd, e, he, hei⟩ := hi
        rcases aset_mem hpd with hin | hval
        · exact Or.inl (hei ▸ mem_lutVals_of hin hqd he)
        · rw [hval] at hqd
          rcases aset_mem hqd with hin' | hval'
          · exact Or.inl (hei ▸ mem_lutVals_of (afind_mem hpx) hin' he)
          · rw [hval'] at he
            rcases aset_mem he with hin'' | hval''
            · exact Or.inl (hei ▸ mem_lutVals_of (afind_mem hpx) (afind_mem hpy) hin'')
            · rw [hval''] at hei
              exact Or.inr hei.symm
      · simp only [hpz, Option.isNone_some, Bool.false_eq_true, if_false]
        intro i hi
        simp only [lutVals, List.mem_flatMap, List.mem_map] at hi
        obtain ⟨pd, hpd, qd, hqd, e, he, hei⟩ := hi
        rcases aset_mem hpd with hin | hval
        · exact Or.inl (hei ▸ mem_lutVals_of hin hqd he)
        · rw [hval] at hqd
          rcases aset_mem hqd with hin' | hval'
          · exact Or.inl (hei ▸ mem_lutVals_of (afind_mem hpx) hin' he)
          · rw [hval'] at he
            exact Or.inl (hei ▸ mem_lutVals_of (afind_mem hpx) (afind_mem hpy) he)

theorem get_block_mem (c : Circuit) (p : Pos) (i : Nat)
    (h : c.get_block p = some i) : i ∈ lutVals c.index_lut := by
  unfold Circuit.get_block at h
  cases h1 : afind c.index_lut p.1 with
  | none => rw [h1] at h; simp [afind] at h
  | some d2 =>
    rw [h1] at h
    simp only [Option.getD_some] at h
    cases h2 : afind d2 p.2.1 with
    | none => rw [h2] at h; simp [afind] at h
    | some d3 =>
      rw [h2] at h
      simp only [Option.getD_some] at h
      exact mem_lutVals_of (afind_mem h1) (afind_mem h2) (afind_mem h)

theorem CircuitWF_empty : CircuitWF Circuit.empty := by
  refine ⟨?_, ?_, rfl⟩ <;> simp [lutVals, Circuit.empty]

theorem add_logic_WF (c : Circuit) (g : LogicGate) (hWF : CircuitWF c)
    (hg : g.connections = []) : CircuitWF (c.add_logic g) := by
  obtain ⟨hv, hc, hn⟩ := hWF
  refine ⟨?_, ?_, ?_⟩
  · intro i hi
    rcases generate_lut_lutVals
        { c with logic_gates := c.logic_gates ++ [g] } g.position i hi with hin | heq
    · have := hv i hin
      rw [add_logic_length]
      omega
    · have hcc : ({ c with logic_gates := c.logic_gates ++ [g] } : Circuit).id_counter
          = c.id_counter := rfl
      rw [hcc] at heq
      rw [add_logic_length]
      omega
  · intro g' hg' t ht
    rw [add_logic_gates] at hg'
    rw [add_logic_length]
    rcases List.mem_append.mp hg' with h | h
    · have := hc g' h t ht
      omega
    · simp only [List.mem_singleton] at h
      subst h
      rw [hg] at ht
      simp at ht
  · have hcounter : (c.add_logic g).id_counter = c.id_counter + 1 := rfl
    rw [add_logic_length, hcounter]
    omega

theorem connectBlocks_WF (c : Circuit) (p q : Pos) (hWF : CircuitWF c) :
    CircuitWF (c.connectBlocks p q) := by
  obtain ⟨hv, hc, hn⟩ := hWF
  unfold Circuit.connectBlocks
  split
  · next i j hi hj =>
    refine ⟨?_, ?_, ?_⟩
    · intro x hx
      have := hv x hx
      simpa [modifyIdx_length] using this
    · intro g' hg' t ht
      simp only [modifyIdx_length]
      rcases modifyIdx_mem hg' with h | ⟨g₀, hg₀, rfl⟩
      · exact hc g' h t ht
      · unfold LogicGate.connect_to at ht
        simp only at ht
        rcases List.mem_append.mp ht with h | h
        · exact hc g₀ hg₀ t h
        · simp only [List.mem_singleton] at h
          subst h
          exact hv t (get_block_mem c q t hj)
    · simpa [modifyIdx_length] using hn
  · exact ⟨hv, hc, hn⟩

theorem wireStep_WF (c : Circuit) (pq : Pos × Pos) (hWF : CircuitWF c) :
    CircuitWF (c.wireStep pq) := by
  unfold Circuit.wireStep
  split
  · exact connectBlocks_WF c pq.1 pq.2 hWF
  · exact hWF

theorem wire_gates_WF (c : Circuit) (ins outs : List Pos) (c' : Circuit)
    (hWF : CircuitWF c) (h : c.wire_gates ins outs = Except.ok c') :
    CircuitWF c' := by
  unfold Circuit.wire_gates at h
  split at h
  · cases h
    exact foldl_inv Circuit.wireStep _ (fun s a _ hs => wireStep_WF s a hs) c hWF
  · split at h
    · split at h
      · cases h; exact hWF
      · cases h
        refine foldl_inv _ _ (fun s a _ hs => ?_) c hWF
        split
        · exact connectBlocks_WF s _ _ hs
        · exact hs
    · split at h
      · cases h; exact hWF
      · cases h
        refine foldl_inv _ _ (fun s a _ hs => ?_) c hWF
        split
        · exact connectBlocks_WF s _ _ hs
        · exact hs
    · cases h

/-- Invariant preservation through a loop that may raise. -/
theorem foldE_inv {σ α : Type} (Inv : σ → Prop) (step : σ → α → Except String σ)
    (l : List α)
    (h : ∀ s a, a ∈ l → Inv s → ∀ s', step s a = Except.ok s' → Inv s') :
    ∀ s s', foldE step s l = Except.ok s' → Inv s → Inv s' := by
  induction l with
  | nil =>
    intro s s' he hs
    cases he
    exact hs
  | cons hd tl ih =>
    intro s s' he hs
    unfold foldE at he
    cases hstep : step s hd with
    | error e => rw [hstep] at he; cases he
    | ok s1 =>
      rw [hstep] at he
      exact ih (fun s'' a ha => h s'' a (List.mem_cons_of_mem _ ha)) s1 s' he
        (h s hd (List.mem_cons_self _ _) hs s1 hstep)

theorem decoderBitStep_WF (c : Circuit) (oy : Nat) (c' : Circuit)
    (hWF : CircuitWF c) (h : decoderBitStep c oy = Except.ok c') : CircuitWF c' := by
  unfold decoderBitStep at h
  refine wire_gates_WF _ _ _ _ ?_ h
  exact add_logic_WF _ _ (add_logic_WF _ _ (add_logic_WF _ _ hWF rfl) rfl) rfl

theorem decoderCellStep_WF (w : Nat) (ci : Circuit × Nat) (cell : Nat × Nat)
    (ci' : Circuit × Nat) (hWF : CircuitWF ci.1)
    (h : decoderCellStep w ci cell = Except.ok ci') : CircuitWF ci'.1 := by
  unfold decoderCellStep at h
  cases hw : (ci.1.add_logic
      (LogicGate.make ((cell.1 : Int), (cell.2 : Int), 0) "and" "222222")).wire_gates
      (decoderInputPositions w ci.2) [((cell.1 : Int), (cell.2 : Int), 0)] with
  | error e => simp only [hw] at h; cases h
  | ok c2 =>
    simp only [hw] at h
    cases h
    exact wire_gates_WF _ _ _ _ (add_logic_WF _ _ hWF rfl) hw

theorem create_decoder_WF (w : Nat) (c : Circuit)
    (h : create_decoder w = Except.ok c) : CircuitWF c := by
  unfold create_decoder at h
  cases h1 : foldE decoderBitStep Circuit.empty (List.range w) with
  | error e => simp only [h1] at h; exact Except.noConfusion h
  | ok dec =>
    simp only [h1] at h
    split at h
    · cases h
    · cases h2 : foldE (decoderCellStep w) (dec, 0) (decoderCells w) with
      | error e => simp only [h2] at h; exact Except.noConfusion h
      | ok ci =>
        simp only [h2] at h
        cases h
        have hdec : CircuitWF dec :=
          foldE_inv CircuitWF decoderBitStep (List.range w)
            (fun s a _ hs s' hst => decoderBitStep_WF s a s' hs hst)
            Circuit.empty dec h1 CircuitWF_empty
        exact foldE_inv (fun ci : Circuit × Nat => CircuitWF ci.1) (decoderCellStep w)
          (decoderCells w) (fun s a _ hs s' hst => decoderCellStep_WF w s a s' hs hst)
          (dec, 0) ci h2 hdec

theorem lutCellStep_WF (w m : Nat) (f : Nat → Nat → List Char) (ci : Circuit × Nat)
    (cell : Nat × Nat) (ci' : Circuit × Nat) (hWF : CircuitWF ci.1)
    (h : lutCellStep w m f ci cell = Except.ok ci') : CircuitWF ci'.1 := by
  unfold lutCellStep at h
  cases hw : ci.1.wire_gates [((cell.1 : Int), (cell.2 : Int), 0)]
      (lutOutputPositions w m f ci.2) with
  | error e => simp only [hw] at h; cases h
  | ok c2 =>
    simp only [hw] at h
    cases h
    exact wire_gates_WF _ _ _ _ hWF hw

theorem create_lut_WF (w m : Nat) (f : Nat → Nat → List Char) (c : Circuit)
    (h : create_lut w m f = Except.ok c) : CircuitWF c := by
  unfold create_lut at h
  cases h1 : create_decoder w with
  | error e => simp only [h1] at h; exact Except.noConfusion h
  | ok lut0 =>
    simp only [h1] at h
    split at h
    · cases h
    · cases h2 : foldE (lutCellStep w m f)
          (List.foldl lutOrStep lut0 (upRange w m), 0) (lutCells w) with
      | error e => simp only [h2] at h; exact Except.noConfusion h
      | ok ci =>
        simp only [h2] at h
        cases h
        have hor : CircuitWF (List.foldl lutOrStep lut0 (upRange w m)) := by
          refine foldl_inv lutOrStep _ (fun s a _ hs => ?_) lut0 (create_decoder_WF w lut0 h1)
          exact add_logic_WF _ _ hs rfl
        exact foldE_inv (fun ci : Circuit × Nat => CircuitWF ci.1) (lutCellStep w m f)
          (lutCells w) (fun s a _ hs s' hst => lutCellStep_WF w m f s a s' hs hst)
          _ ci h2 hor

/-! ### The claims -/

set_option maxRecDepth 8000

/-- Claim C1, counterexample: the claim fails twice. `create_decoder 1`
raises `ZeroDivisionError` instead of terminating normally (Python's
`round(0.5)` is `0` under banker's rounding, so `split = 2 // 0`); and
`create_decoder 6` terminates with 78 gates, not `3·6 + 2^6 = 82`
(`split = 64 // 6 = 10` columns times `64 // 10 = 6` rows is only 60
decode gates). -/
theorem claim1_counterexample :
    isErrB (create_decoder 1) = true ∧
      (create_decoder 6).toOption.map (fun c => c.logic_gates.length) = some 78 ∧
      78 ≠ 3 * 6 + 2 ^ 6 := by
  refine ⟨by decide, by decide, by decide⟩

/-- Claim C1, amended: for every address bit width `w ≥ 2`,
`create_decoder w` terminates normally and produces exactly
`3 w + split * (2^w / split)` gates, where `split = 2^w / r` and `r` is
`round(w - 0.5)` under banker's rounding (`w` for even `w`, `w - 1` for odd
`w`).  This equals `3 w + 2^w` exactly when `split` divides `2^w` (true for
`w ∈ {2, 3, 4, 5, 8, 9}`, false e.g. for `w = 6`); for `w ≤ 1` the call
raises `ZeroDivisionError`. -/
theorem claim1_gate_count_amended (w : Nat) (hw : 2 ≤ w) :
    ∃ c, create_decoder w = Except.ok c ∧
      c.logic_gates.length = 3 * w + decoderSplit w * decoderRows w :=
  create_decoder_ok_count w hw

/-- Claim C1, witness at `w = 2`: the decoder exists and has
`3·2 + 2·2 = 10` gates. -/
theorem claim1_gate_count_witness :
    ∃ c, create_decoder 2 = Except.ok c ∧
      c.logic_gates.length = 3 * 2 + decoderSplit 2 * decoderRows 2 :=
  claim1_gate_count_amended 2 (by omega)

/-- Claim C2, counterexample at `w = 2, m = 2` (`f = square_func`): the
decode gates are slots 6-9 (decoder addresses 0-3 at `(4,0) (4,1) (3,0)
(3,1)`), the OR accumulators are slots 10 and 11.  `square_func 3 2 =
"1001"` has 1 bits, yet address 3's decode gate (slot 9) drives nothing,
and address 2's gate (slot 8) drives slot 0 — the decoder input-line AND at
`(0,0,0)`, not an OR accumulator (reversed-string position `j` is wired to
row `m - w + j`, which is its OR accumulator's row `w + j` exactly when
`m = 2 w`; here `m = w = 2` shifts the targets onto the input-line rows —
and the wiring loop visits the grid in reverse). -/
theorem claim2_counterexample :
    (create_lut 2 2 square_func).toOption.map (fun c =>
      (c.logic_gates.map (fun g => (g.position, g.mode, g.connections))).drop 6)
    = some [((4, 0, 0), 0, [0, 11]), ((4, 1, 0), 0, [10]), ((3, 0, 0), 0, [0]),
        ((3, 1, 0), 0, []), ((0, 2, 0), 1, []), ((0, 3, 0), 1, [])] ∧
      '1' ∈ square_func 3 2 := by
  refine ⟨by decide, by decide⟩

/-- Claim C3, counterexample at `w = 2`: address 1 is `"01"`, whose bit at
position `off = 1` is 1, so the claim predicts the TRUE line `(1, 0, 0)`
(slot 1) drives decode gate 7.  In the built decoder, slot 1 drives
`[6, 8]` — not 7 — while the COMPLEMENT line `(2, 0, 0)` (slot 2, NOR,
mode 4) drives `[7, 9]`.  The code wires `1 + int(char)`, i.e. 1 bits to
the complement line and 0 bits to the true line — the reverse of the
claim. -/
theorem claim3_counterexample :
    (create_decoder 2).toOption.map (fun c =>
      c.logic_gates.map (fun g => (g.position, g.mode, g.connections)))
    = some [((0, 0, 0), 0, [1, 2]), ((1, 0, 0), 0, [6, 8]), ((2, 0, 0), 4, [7, 9]),
        ((0, 1, 0), 0, [4, 5]), ((1, 1, 0), 0, [6, 7]), ((2, 1, 0), 4, [8, 9]),
        ((4, 0, 0), 0, []), ((4, 1, 0), 0, []), ((3, 0, 0), 0, []),
        ((3, 1, 0), 0, [])] := by
  decide

/-- Claim C3, amended: in `create_decoder`, the fan-in input list for the
decode gate of address `index` selects, for bit position `off` (0 = most
significant, reading `index` as a zero-padded `w`-bit binary string), the
COMPLEMENT line `(2, w - off - 1, 0)` when that bit is 1 and the TRUE line
`(1, w - off - 1, 0)` when it is 0 — i.e. the roles the claim assigns to
the two lines are swapped. -/
theorem claim3_bit_selection_amended (w idx off : Nat) (hw : 1 ≤ w)
    (hidx : idx < 2 ^ w) (hoff : off < w) :
    (decoderInputPositions w idx)[off]? =
      some (((if idx / 2 ^ (w - 1 - off) % 2 = 1 then 2 else 1 : Int),
        (w : Int) - (off : Int) - 1, 0) : Pos) :=
  decoderInputPositions_get w idx off hw hidx hoff

/-- Claim C3, witness at `w = 2, index = 1, off = 1`: the bit is 1 and the
selected input is the complement line `(2, 0, 0)`. -/
theorem claim3_bit_selection_witness :
    (decoderInputPositions 2 1)[1]? = some (((2 : Int), 0, 0) : Pos) := by
  have h := claim3_bit_selection_amended 2 1 1 (by decide) (by decide) (by decide)
  simpa using h

/-- Claim C4, counterexample: place two gates at `(0,0,0)`; both are in the
gate list, but the lookup returns slot 0 — the FIRST-placed gate — not
slot 1 as the last-writer-wins claim predicts (the leaf write in
`generate_lut` is guarded by `is None`, so a second registration is
dropped). -/
theorem claim4_counterexample :
    ((Circuit.empty.add_logic (LogicGate.make (0, 0, 0) "and" "eeeeee")).add_logic
        (LogicGate.make (0, 0, 0) "or" "cccccc")).logic_gates.length = 2 ∧
      ((Circuit.empty.add_logic (LogicGate.make (0, 0, 0) "and" "eeeeee")).add_logic
        (LogicGate.make (0, 0, 0) "or" "cccccc")).get_block (0, 0, 0) = some 0 ∧
      (0 : Nat) ≠ 1 := by
  refine ⟨by decide, by decide, by decide⟩

/-- Claim C4, amended: placing a gate at an already-registered coordinate
appends it to the gate list but leaves the ENTIRE spatial index unchanged,
so a subsequent lookup still returns the slot of the earlier gate — first
writer wins, and the later gate is the one shadowed in the spatial
lookup. -/
theorem claim4_first_writer_wins (c : Circuit) (g : LogicGate)
    (h : c.is_solid g.position = true) :
    (c.add_logic g).logic_gates = c.logic_gates ++ [g] ∧
      (c.add_logic g).index_lut = c.index_lut ∧
      (c.add_logic g).get_block g.position = c.get_block g.position := by
  obtain ⟨h1, h2, h3⟩ := add_logic_occupied c g h
  refine ⟨h1, h2, ?_⟩
  unfold Circuit.get_block
  rw [h2]

/-- Claim C4, witness: the concrete double placement of the
counterexample, through the amended theorem. -/
theorem claim4_first_writer_witness :
    ((Circuit.empty.add_logic (LogicGate.make (0, 0, 0) "and" "eeeeee")).add_logic
        (LogicGate.make (0, 0, 0) "or" "cccccc")).get_block (0, 0, 0) =
      (Circuit.empty.add_logic (LogicGate.make (0, 0, 0) "and" "eeeeee")).get_block
        (0, 0, 0) := by
  have h := claim4_first_writer_wins
    (Circuit.empty.add_logic (LogicGate.make (0, 0, 0) "and" "eeeeee"))
    (LogicGate.make (0, 0, 0) "or" "cccccc") (by decide)
  exact h.2.2

/-- Claim C5, counterexample: an EMPTY input list against a 2-element
output list raises `ArityMismatch`, although the claim's condition "both
lengths ≥ 2" is false (the input length is 0). -/
theorem claim5_counterexample :
    isErrB (Circuit.empty.wire_gates [] [(0, 0, 0), (1, 1, 1)]) = true ∧
      ¬2 ≤ ([] : List Pos).length := by
  refine ⟨by decide, by decide⟩

/-- Claim C5, amended: `wire_gates` raises `ArityMismatch` if and only if
the two lists have unequal lengths and NEITHER list has length exactly 1
(so empty-vs-multi raises too); every other combination returns without
raising. -/
theorem claim5_arity_amended (c : Circuit) (ins outs : List Pos) :
    isErrB (c.wire_gates ins outs) = true ↔
      (ins.length ≠ outs.length ∧ ins.length ≠ 1 ∧ outs.length ≠ 1) :=
  wire_gates_error_char c ins outs

/-- Claim C6, counterexample: `square_func 2 1` is `"100"` — three
characters, NOT truncated to the requested single bit (`(1 - 3) * "0"` is
just the empty padding in Python). -/
theorem claim6_counterexample :
    square_func 2 1 = ['1', '0', '0'] ∧ (square_func 2 1).length ≠ 1 := by
  refine ⟨by decide, by decide⟩

/-- Claim C6, amended: `square_func index m` always denotes `index²` in
binary (most significant character first) and has length
`max m (len (bin (index²)))`: it is zero-padded on the left to `m`
characters when the binary form is shorter, and returned UNTRUNCATED —
longer than `m` — when the square needs more than `m` bits. -/
theorem claim6_square_amended (index bit_width : Nat) :
    bitsVal (square_func index bit_width) = index ^ 2 ∧
      (square_func index bit_width).length
        = max bit_width (natBinStr (index ^ 2)).length := by
  constructor
  · unfold square_func
    rw [bitsVal_pad]
    exact bitsVal_natBinStr (index ^ 2)
  · unfold square_func
    rw [List.length_append, List.length_replicate]
    omega

/-- Claim C7: with equal-length lists `wire_gates` performs exactly the
pairwise fold of one connection attempt per index and never raises; a pair
with an unoccupied endpoint leaves the circuit completely unchanged; in
particular wiring the never-placed `(9,9,9)` to `(0,0,0)` is a no-op
returning the circuit as is. -/
theorem claim7_wire_pairwise (c : Circuit) (ins outs : List Pos)
    (h : ins.length = outs.length) :
    c.wire_gates ins outs
        = Except.ok (List.foldl Circuit.wireStep c (ins.zip outs)) ∧
      (∀ (c₀ : Circuit) (p q : Pos), (c₀.is_solid p && c₀.is_solid q) = false →
        c₀.wireStep (p, q) = c₀) ∧
      (c.is_solid (9, 9, 9) = false →
        c.wire_gates [(9, 9, 9)] [(0, 0, 0)] = Except.ok c) := by
  refine ⟨wire_gates_eq_len c ins outs h, ?_, ?_⟩
  · intro c₀ p q hpq
    unfold Circuit.wireStep
    simp [hpq]
  · intro h9
    rw [wire_gates_eq_len c [(9, 9, 9)] [(0, 0, 0)] rfl]
    simp [Circuit.wireStep, h9]

/-- Claim C7, witness: on the empty circuit, wiring the unplaced `(9,9,9)`
to `(0,0,0)` succeeds and returns the circuit unchanged. -/
theorem claim7_wire_witness :
    Circuit.empty.wire_gates [(9, 9, 9)] [(0, 0, 0)] = Except.ok Circuit.empty := by
  have h := claim7_wire_pairwise Circuit.empty [(9, 9, 9)] [(0, 0, 0)] rfl
  exact h.2.2 (by decide)

/-- Claim C8: after any full `create_lut` build (any widths, any bit
function), every connection target stored in any gate is a valid zero-based
index into the record list exported by `to_blueprint` — no dangling wire
references. -/
theorem claim8_no_dangling (w m : Nat) (f : Nat → Nat → List Char) :
    validTargetsE (create_lut w m f) = true := by
  cases h : create_lut w m f with
  | error e => rfl
  | ok c =>
    have hWF := create_lut_WF w m f c h
    show validTargets c = true
    unfold validTargets
    rw [List.all_eq_true]
    intro g hg
    rw [List.all_eq_true]
    intro t ht
    rw [decide_eq_true_eq]
    have hlen : c.to_blueprint.length = c.logic_gates.length := by
      unfold Circuit.to_blueprint
      rw [List.length_map, List.enum_length]
    rw [hlen]
    exact hWF.2.1 g hg t ht

/-- Claim C9: the query methods `is_solid` and `get_block` thread the
circuit state through unchanged — any number of interleaved calls leaves
the gate list, the spatial index and the counter exactly as they were. -/
theorem claim9_queries_pure (c : Circuit) (qs : List Pos) :
    queryIter c qs = c ∧
      (∀ p : Pos, (c.is_solidCall p).2 = c ∧ (c.get_blockCall p).2 = c) :=
  ⟨queryIter_id c qs, fun _ => ⟨rfl, rfl⟩⟩

/-- Claim C10: `is_solid` answers `true` exactly when `get_block` returns a
slot id; on an unoccupied coordinate `get_block` returns `none` (Python
`None`) rather than raising. -/
theorem claim10_solid_iff_lookup (c : Circuit) (p : Pos) :
    c.is_solid p = (c.get_block p).isSome :=
  is_solid_eq_isSome c p

/-! ### Pointwise behaviour of the index structures -/

theorem afind_aset_ne {α : Type} (l : List (Int × α)) (k k' : Int) (v : α)
    (h : k ≠ k') : afind (aset l k v) k' = afind l k' := by
  induction l with
  | nil => simp [aset, afind, h]
  | cons hd tl ih =>
    obtain ⟨a, b⟩ := hd
    by_cases hk : a = k
    · subst hk
      simp only [aset, if_pos rfl, afind]
      rw [if_neg h, if_neg h]
    · simp only [aset, if_neg hk, afind]
      split
      · rfl
      · exact ih

theorem aset_aset {α : Type} (l : List (Int × α)) (k : Int) (v v' : α) :
    aset (aset l k v) k v' = aset l k v' := by
  induction l with
  | nil => simp [aset]
  | cons hd tl ih =>
    obtain ⟨a, b⟩ := hd
    by_cases hk : a = k
    · simp [aset, hk]
    · simp [aset, hk, ih]

theorem modifyIdx_getElem_ne (l : List LogicGate) (i j : Nat)
    (f : LogicGate → LogicGate) (h : i ≠ j) : (modifyIdx l i f)[j]? = l[j]? := by
  induction l generalizing i j with
  | nil => rfl
  | cons hd tl ih =>
    cases i with
    | zero =>
      cases j with
      | zero => exact absurd rfl h
      | succ j' => simp [modifyIdx]
    | succ i' =>
      cases j with
      | zero => simp [modifyIdx]
      | succ j' =>
        simp only [modifyIdx, List.getElem?_cons_succ]
        exact ih i' j' (fun he => h (by omega))

theorem modifyIdx_getElem_self (l : List LogicGate) (i : Nat)
    (f : LogicGate → LogicGate) : (modifyIdx l i f)[i]? = (l[i]?).map f := by
  induction l generalizing i with
  | nil => rfl
  | cons hd tl ih =>
    cases i with
    | zero => simp [modifyIdx]
    | succ i' =>
      simp only [modifyIdx, List.getElem?_cons_succ]
      exact ih i'


/-- Registering a FRESH coordinate maps it to the current counter and
leaves the lookup of every other coordinate unchanged. -/
theorem add_logic_fresh (c : Circuit) (g : LogicGate)
    (h : c.is_solid g.position = false) :
    (c.add_logic g).get_block g.position = some c.id_counter ∧
      ∀ p : Pos, p ≠ g.position → (c.add_logic g).get_block p = c.get_block p := by
  cases h1 : afind c.index_lut g.position.1 with
  | none =>
    have hlut : (c.add_logic g).index_lut
        = aset c.index_lut g.position.1
            [(g.position.2.1, [(g.position.2.2, c.id_counter)])] := by
      show (Circuit.generate_lut _ g.position).index_lut = _
      unfold Circuit.generate_lut
      simp only [h1, Option.isNone_none, if_true, afind_aset_self, Option.getD_some,
        afind, aset, aset_aset, if_pos rfl]
    constructor
    · unfold Circuit.get_block
      rw [hlut, afind_aset_self]
      simp [afind]
    · intro p hp
      unfold Circuit.get_block
      rw [hlut]
      by_cases hx : g.position.1 = p.1
      · rw [← hx, afind_aset_self, h1]
        simp only [Option.getD_some, Option.getD_none]
        by_cases hy : g.position.2.1 = p.2.1
        · have hz : p.2.2 ≠ g.position.2.2 := by
            intro hz
            apply hp
            have hpe : p = (p.1, p.2.1, p.2.2) := rfl
            rw [hpe, ← hx, ← hy, hz]
          rw [← hy]
          simp only [afind, if_pos rfl, Option.getD_some]
          rw [if_neg (fun he => hz he.symm)]
        · simp only [afind]
          rw [if_neg hy]
          rfl
      · rw [afind_aset_ne _ _ _ _ hx]
  | some d2 =>
    cases h2 : afind d2 g.position.2.1 with
    | none =>
      have hlut : (c.add_logic g).index_lut
          = aset c.index_lut g.position.1
              (aset d2 g.position.2.1 [(g.position.2.2, c.id_counter)]) := by
        show (Circuit.generate_lut _ g.position).index_lut = _
        unfold Circuit.generate_lut
        simp only [h1, h2, Option.isNone_some, Option.isNone_none, Bool.false_eq_true,
          if_false, if_true, afind_aset_self, Option.getD_some, afind, aset,
          aset_aset, if_pos rfl]
      constructor
      · unfold Circuit.get_block
        rw [hlut, afind_aset_self]
        simp only [Option.getD_some]
        rw [afind_aset_self]
        simp [afind]
      · intro p hp
        unfold Circuit.get_block
        rw [hlut]
        by_cases hx : g.position.1 = p.1
        · rw [← hx, afind_aset_self, h1]
          simp only [Option.getD_some]
          by_cases hy : g.position.2.1 = p.2.1
          · have hz : p.2.2 ≠ g.position.2.2 := by
              intro hz
              apply hp
              have hpe : p = (p.1, p.2.1, p.2.2) := rfl
              rw [hpe, ← hx, ← hy, hz]
            rw [← hy, afind_aset_self, h2]
            simp only [Option.getD_some, Option.getD_none]
            simp only [afind]
            rw [if_neg (fun he => hz he.symm)]
          · rw [afind_aset_ne _ _ _ _ hy]
        · rw [afind_aset_ne _ _ _ _ hx]
    | some d3 =>
      cases h3 : afind d3 g.position.2.2 with
      | none =>
        have hlut : (c.add_logic g).index_lut
            = aset c.index_lut g.position.1
                (aset d2 g.position.2.1
                  (aset d3 g.position.2.2 c.id_counter)) := by
          show (Circuit.generate_lut _ g.position).index_lut = _
          unfold Circuit.generate_lut
          simp only [h1, h2, h3, Option.isNone_some, Option.isNone_none,
            Bool.false_eq_true, if_false, if_true, Option.getD_some]
        constructor
        · unfold Circuit.get_block
          rw [hlut, afind_aset_self]
          simp only [Option.getD_some]
          rw [afind_aset_self]
          simp only [Option.getD_some]
          rw [afind_aset_self]
        · intro p hp
          unfold Circuit.get_block
          rw [hlut]
          by_cases hx : g.position.1 = p.1
          · rw [← hx, afind_aset_self, h1]
            simp only [Option.getD_some]
            by_cases hy : g.position.2.1 = p.2.1
            · have hz : p.2.2 ≠ g.position.2.2 := by
                intro hz
                apply hp
                have hpe : p = (p.1, p.2.1, p.2.2) := rfl
                rw [hpe, ← hx, ← hy, hz]
              rw [← hy, afind_aset_self, h2]
              simp only [Option.getD_some]
              rw [afind_aset_ne _ _ _ _ (fun he => hz he.symm)]
            · rw [afind_aset_ne _ _ _ _ hy]
          · rw [afind_aset_ne _ _ _ _ hx]
      | some i =>
        exfalso
        simp [Circuit.is_solid, h1, h2, h3] at h

/-- `get_block` and `is_solid` only read the spatial index. -/
theorem get_block_congr (c c0 : Circuit) (h : c.index_lut = c0.index_lut) (p : Pos) :
    c.get_block p = c0.get_block p := by
  unfold Circuit.get_block
  rw [h]

theorem is_solid_congr (c c0 : Circuit) (h : c.index_lut = c0.index_lut) (p : Pos) :
    c.is_solid p = c0.is_solid p := by
  rw [is_solid_eq_isSome, is_solid_eq_isSome, get_block_congr c c0 h]

theorem modifyIdx_congr (l : List LogicGate) (i : Nat) (f f' : LogicGate → LogicGate)
    (h : ∀ g, f g = f' g) : modifyIdx l i f = modifyIdx l i f' := by
  induction l generalizing i with
  | nil => rfl
  | cons hd tl ih =>
    cases i with
    | zero => simp [modifyIdx, h]
    | succ n => simp [modifyIdx, ih]

theorem modifyIdx_id (l : List LogicGate) (i : Nat) :
    modifyIdx l i (fun g => g) = l := by
  induction l generalizing i with
  | nil => rfl
  | cons hd tl ih =>
    cases i with
    | zero => rfl
    | succ n => simp [modifyIdx, ih]

theorem modifyIdx_modifyIdx (l : List LogicGate) (i : Nat)
    (f g : LogicGate → LogicGate) :
    modifyIdx (modifyIdx l i f) i g = modifyIdx l i (fun x => g (f x)) := by
  induction l generalizing i with
  | nil => rfl
  | cons hd tl ih =>
    cases i with
    | zero => rfl
    | succ n => simp [modifyIdx, ih]

/-- Unfolding the fan-out loop: starting from any circuit with the same
spatial index as `c0`, the loop appends to gate `i` (the block registered
at the single input `p`) exactly the blocks registered at the occupied
output positions, in order. -/
theorem fanout_fold (c0 : Circuit) (p : Pos) (i : Nat) :
    ∀ (outs : List Pos) (c : Circuit), c.index_lut = c0.index_lut →
      c0.get_block p = some i →
      (List.foldl (fun c' q => if c'.is_solid q then c'.connectBlocks p q else c')
        c outs).logic_gates
        = modifyIdx c.logic_gates i (fun g =>
            { g with connections := g.connections ++ outs.filterMap c0.get_block }) := by
  intro outs
  induction outs with
  | nil =>
    intro c hidx hp
    simp only [List.foldl_nil, List.filterMap_nil, List.append_nil]
    rw [modifyIdx_congr _ _ _ (fun g => g) (fun g => rfl), modifyIdx_id]
  | cons q rest ih =>
    intro c hidx hp
    simp only [List.foldl_cons, List.filterMap_cons]
    by_cases hq : c0.is_solid q = true
    · rw [if_pos (by rw [is_solid_congr c c0 hidx]; exact hq)]
      have hqb : ∃ j, c0.get_block q = some j := by
        rw [is_solid_eq_isSome] at hq
        exact ⟨(c0.get_block q).get hq, (Option.some_get hq).symm⟩
      obtain ⟨j, hj⟩ := hqb
      have hcb : (c.connectBlocks p q).logic_gates
          = modifyIdx c.logic_gates i (fun g => g.connect_to j) := by
        unfold Circuit.connectBlocks
        rw [get_block_congr c c0 hidx p, get_block_congr c c0 hidx q, hp, hj]
      have hcb_idx : (c.connectBlocks p q).index_lut = c.index_lut :=
        (connectBlocks_parts c p q).2.1
      rw [ih (c.connectBlocks p q) (hcb_idx.trans hidx) hp, hcb,
        modifyIdx_modifyIdx, hj]
      apply modifyIdx_congr
      intro g
      unfold LogicGate.connect_to
      simp
    · rw [if_neg (by rw [is_solid_congr c c0 hidx]; simpa using hq)]
      have hqn : c0.get_block q = none := by
        rw [is_solid_eq_isSome] at hq
        simpa using hq
      rw [hqn]
      exact ih c hidx hp

/-- A successful `wire_gates` call with a single input position appends to
the input's gate exactly the registered blocks of the occupied outputs. -/
theorem wire_fanout_gates (c : Circuit) (p : Pos) (i : Nat) (outs : List Pos)
    (hp : c.get_block p = some i) (c' : Circuit)
    (h : c.wire_gates [p] outs = Except.ok c') :
    c'.logic_gates = modifyIdx c.logic_gates i (fun g =>
      { g with connections := g.connections ++ outs.filterMap c.get_block }) := by
  have hps : c.is_solid p = true := by
    rw [is_solid_eq_isSome, hp]
    rfl
  rcases outs with _ | ⟨q, _ | ⟨q2, rest⟩⟩
  · unfold Circuit.wire_gates at h
    split at h
    · next hlen => simp at hlen
    · change (if !(c.is_solid p) then Except.ok c
          else Except.ok (List.foldl
            (fun c' q => if c'.is_solid q then c'.connectBlocks p q else c') c []))
          = Except.ok c' at h
      rw [hps] at h
      simp only [Bool.not_true, Bool.false_eq_true, if_false, List.foldl_nil] at h
      cases h
      simp only [List.filterMap_nil, List.append_nil]
      rw [modifyIdx_congr _ _ _ (fun g => g) (fun g => rfl), modifyIdx_id]
  · unfold Circuit.wire_gates at h
    split at h
    · cases h
      show (c.wireStep (p, q)).logic_gates = _
      unfold Circuit.wireStep
      by_cases hq : c.is_solid q = true
      · rw [if_pos (by simp [hps, hq])]
        have hqb : ∃ j, c.get_block q = some j := by
          rw [is_solid_eq_isSome] at hq
          exact ⟨(c.get_block q).get hq, (Option.some_get hq).symm⟩
        obtain ⟨j, hj⟩ := hqb
        unfold Circuit.connectBlocks
        rw [hp, hj]
        simp only [List.filterMap_cons, hj, List.filterMap_nil]
        exact modifyIdx_congr _ _ _ _ (fun g => rfl)
      · rw [if_neg (by simp [hps]; simpa using hq)]
        have hqn : c.get_block q = none := by
          rw [is_solid_eq_isSome] at hq
          simpa using hq
        simp only [List.filterMap_cons, hqn, List.filterMap_nil, List.append_nil]
        rw [modifyIdx_congr _ _ _ (fun g => g) (fun g => rfl), modifyIdx_id]
    · next hlen => exact absurd rfl hlen
  · unfold Circuit.wire_gates at h
    split at h
    · next hlen => simp at hlen
    · change (if !(c.is_solid p) then Except.ok c
          else Except.ok (List.foldl
            (fun c' q => if c'.is_solid q then c'.connectBlocks p q else c') c
            (q :: q2 :: rest)))
          = Except.ok c' at h
      rw [hps] at h
      simp only [Bool.not_true, Bool.false_eq_true, if_false] at h
      cases h
      exact fanout_fold c p i (q :: q2 :: rest) c rfl hp

/-- The fan-in loop never touches a gate whose slot is not registered at
one of the input positions. -/
theorem fanin_fold_untouched (q : Pos) (j : Nat) :
    ∀ (ins : List Pos) (c0 c : Circuit), c.index_lut = c0.index_lut →
      (∀ p ∈ ins, c0.get_block p ≠ some j) →
      (List.foldl (fun c' p => if c'.is_solid p then c'.connectBlocks p q else c')
        c ins).logic_gates[j]?
        = c.logic_gates[j]? := by
  intro ins
  induction ins with
  | nil => intro c0 c _ _; rfl
  | cons p rest ih =>
    intro c0 c hidx hnot
    simp only [List.foldl_cons]
    by_cases hsp : c.is_solid p = true
    · rw [if_pos hsp]
      have hgb : c.get_block p = c0.get_block p := get_block_congr c c0 hidx p
      have step_idx : (c.connectBlocks p q).index_lut = c.index_lut :=
        (connectBlocks_parts c p q).2.1
      have step_get : (c.connectBlocks p q).logic_gates[j]? = c.logic_gates[j]? := by
        unfold Circuit.connectBlocks
        cases hbp : c.get_block p with
        | none => rfl
        | some ip =>
          cases hbq : c.get_block q with
          | none => rfl
          | some jq =>
            show (modifyIdx c.logic_gates ip (fun g => g.connect_to jq))[j]?
              = c.logic_gates[j]?
            apply modifyIdx_getElem_ne
            intro he
            exact hnot p (List.mem_cons_self _ _) (by rw [← hgb, hbp, he])
      rw [ih c0 (c.connectBlocks p q) (step_idx.trans hidx)
        (fun p' hp' => hnot p' (List.mem_cons_of_mem _ hp')), step_get]
    · rw [if_neg (by simpa using hsp)]
      exact ih c0 c hidx (fun p' hp' => hnot p' (List.mem_cons_of_mem _ hp'))

/-- A successful `wire_gates` call with a single output position leaves
every gate untouched whose slot is not registered at an input position. -/
theorem wire_fanin_untouched (c : Circuit) (ins : List Pos) (q : Pos) (c' : Circuit)
    (h : c.wire_gates ins [q] = Except.ok c') (j : Nat)
    (hj : ∀ p ∈ ins, c.get_block p ≠ some j) :
    c'.logic_gates[j]? = c.logic_gates[j]? := by
  rcases ins with _ | ⟨p, _ | ⟨p2, rest⟩⟩
  · unfold Circuit.wire_gates at h
    split at h
    · next hlen => simp at hlen
    · change (if !(c.is_solid q) then Except.ok c
          else Except.ok (List.foldl
            (fun c' p => if c'.is_solid p then c'.connectBlocks p q else c') c []))
          = Except.ok c' at h
      simp only [List.foldl_nil] at h
      split at h <;> (cases h; rfl)
  · unfold Circuit.wire_gates at h
    split at h
    · cases h
      show (c.wireStep (p, q)).logic_gates[j]? = _
      unfold Circuit.wireStep
      split
      · unfold Circuit.connectBlocks
        cases hbp : c.get_block p with
        | none => rfl
        | some ip =>
          cases hbq : c.get_block q with
          | none => rfl
          | some jq =>
            show (modifyIdx c.logic_gates ip (fun g => g.connect_to jq))[j]?
              = c.logic_gates[j]?
            apply modifyIdx_getElem_ne
            intro he
            exact hj p (List.mem_cons_self _ _) (by rw [hbp, he])
      · rfl
    · next hlen => exact absurd rfl hlen
  · unfold Circuit.wire_gates at h
    split at h
    · next hlen => simp at hlen
    · change (if !(c.is_solid q) then Except.ok c
          else Except.ok (List.foldl
            (fun c' p => if c'.is_solid p then c'.connectBlocks p q else c') c
            (p :: p2 :: rest)))
          = Except.ok c' at h
      split at h
      · cases h; rfl
      · cases h
        exact fanin_fold_untouched q j (p :: p2 :: rest) c c rfl hj

/-! ### Indexed loop invariants -/

theorem foldE_append {σ α : Type} (step : σ → α → Except String σ)
    (l1 l2 : List α) (s : σ) :
    foldE step s (l1 ++ l2) =
      match foldE step s l1 with
      | Except.ok s' => foldE step s' l2
      | Except.error e => Except.error e := by
  induction l1 generalizing s with
  | nil => rfl
  | cons hd tl ih =>
    simp only [List.cons_append, foldE]
    cases step s hd with
    | error e => rfl
    | ok s1 => exact ih s1

theorem foldE_range_inv {σ : Type} (Φ : Nat → σ → Prop)
    (step : σ → Nat → Except String σ) (w : Nat)
    (h : ∀ t s, t < w → Φ t s → ∃ s', step s t = Except.ok s' ∧ Φ (t + 1) s') :
    ∀ s, Φ 0 s → ∃ s', foldE step s (List.range w) = Except.ok s' ∧ Φ w s' := by
  induction w with
  | zero => intro s hs; exact ⟨s, rfl, hs⟩
  | succ k ih =>
    intro s hs
    obtain ⟨s1, h1, hΦ1⟩ := ih (fun t s' ht => h t s' (by omega)) s hs
    obtain ⟨s2, h2, hΦ2⟩ := h k s1 (by omega) hΦ1
    refine ⟨s2, ?_, hΦ2⟩
    rw [List.range_succ, foldE_append, h1]
    simp only [foldE, h2]

theorem foldE_shift {σ α : Type} (step : σ → α → Except String σ) :
    ∀ (l : List α) (Φ : Nat → σ → Prop) (t : Nat) (s : σ), Φ t s →
      (∀ u s' x, t ≤ u → l[u - t]? = some x → Φ u s' →
        ∃ s'', step s' x = Except.ok s'' ∧ Φ (u + 1) s'') →
      ∃ s', foldE step s l = Except.ok s' ∧ Φ (t + l.length) s' := by
  intro l
  induction l with
  | nil =>
    intro Φ t s hs _
    exact ⟨s, rfl, by simpa using hs⟩
  | cons hd tl ih =>
    intro Φ t s hs hstep
    obtain ⟨s1, h1, hΦ1⟩ := hstep t s hd (Nat.le_refl t) (by simp) hs
    obtain ⟨s2, h2, hΦ2⟩ := ih Φ (t + 1) s1 hΦ1 (fun u s' x hu hx hΦ =>
      hstep u s' x (by omega)
        (by rw [show u - t = (u - (t + 1)) + 1 from by omega]
            simpa using hx) hΦ)
    refine ⟨s2, ?_, ?_⟩
    · simp only [foldE, h1]
      exact h2
    · rw [List.length_cons, show t + (tl.length + 1) = (t + 1) + tl.length from by omega]
      exact hΦ2

/-! ### The decode grid, element by element -/

theorem prodCells_getElem (cols rows : List Nat) : ∀ (k a b : Nat),
    cols[k / rows.length]? = some a → rows[k % rows.length]? = some b →
    (prodCells cols rows)[k]? = some (a, b) := by
  induction cols with
  | nil =>
    intro k a b ha _
    simp at ha
  | cons c cs ih =>
    intro k a b ha hb
    simp only [prodCells]
    by_cases hk : k < rows.length
    · have hdiv : k / rows.length = 0 := Nat.div_eq_of_lt hk
      have hmod : k % rows.length = k := Nat.mod_eq_of_lt hk
      rw [hdiv] at ha
      simp only [List.getElem?_cons_zero, Option.some_inj] at ha
      rw [hmod] at hb
      rw [List.getElem?_append]
      rw [if_pos (by simpa using hk)]
      rw [List.getElem?_map, hb]
      simp [ha]
    · have hlen : 0 < rows.length := by
        rcases Nat.eq_zero_or_pos rows.length with h0 | h0
        · rw [h0, Nat.mod_zero] at hb
          have := (List.getElem?_eq_some.mp hb).1
          omega
        · exact h0
      have hk' : rows.length ≤ k := by omega
      rw [List.getElem?_append_right (by simpa using hk')]
      simp only [List.length_map]
      have hdiv : k / rows.length = (k - rows.length) / rows.length + 1 := by
        calc k / rows.length
            = (k - rows.length + rows.length) / rows.length := by
              rw [Nat.sub_add_cancel hk']
          _ = (k - rows.length) / rows.length + 1 := Nat.add_div_right _ hlen
      have hmod : k % rows.length = (k - rows.length) % rows.length := by
        calc k % rows.length
            = (k - rows.length + rows.length) % rows.length := by
              rw [Nat.sub_add_cancel hk']
          _ = (k - rows.length) % rows.length := Nat.add_mod_right _ _
      rw [hdiv] at ha
      simp only [List.getElem?_cons_succ] at ha
      rw [hmod] at hb
      exact ih (k - rows.length) a b ha hb

theorem decoderRows_pos (w k : Nat) (hk : k < decoderSplit w * decoderRows w) :
    0 < decoderRows w := by
  rcases Nat.eq_zero_or_pos (decoderRows w) with h0 | h0
  · rw [h0, Nat.mul_zero] at hk
    omega
  · exact h0

theorem decoderCells_div_lt (w k : Nat) (hk : k < decoderSplit w * decoderRows w) :
    k / decoderRows w < decoderSplit w :=
  (Nat.div_lt_iff_lt_mul (decoderRows_pos w k hk)).mpr hk

theorem decoderCells_getElem (w k : Nat) (hk : k < decoderSplit w * decoderRows w) :
    (decoderCells w)[k]? =
      some (decoderSplit w + 2 - k / decoderRows w, k % decoderRows w) := by
  have hrows := decoderRows_pos w k hk
  unfold decoderCells
  apply prodCells_getElem
  · unfold pyRangeDown
    rw [show decoderSplit w + 2 - 2 = decoderSplit w from by omega]
    rw [List.length_range]
    rw [List.getElem?_map, List.getElem?_range (decoderCells_div_lt w k hk)]
    rfl
  · rw [List.length_range]
    rw [List.getElem?_range (Nat.mod_lt _ hrows)]

/-- Distinct decode indices occupy distinct grid positions. -/
theorem decodeCellPos_inj (w k k' : Nat) (hk : k < decoderSplit w * decoderRows w)
    (hk' : k' < decoderSplit w * decoderRows w) (hne : k ≠ k') :
    decodeCellPos w k ≠ decodeCellPos w k' := by
  intro he
  unfold decodeCellPos at he
  have h1 : decoderSplit w + 2 - k / decoderRows w
      = decoderSplit w + 2 - k' / decoderRows w := by
    have := congrArg Prod.fst he
    simpa using this
  have h2 : k % decoderRows w = k' % decoderRows w := by
    have h := congrArg (fun p : Pos => p.2.1) he
    simp only at h
    exact_mod_cast h
  have hd1 := decoderCells_div_lt w k hk
  have hd2 := decoderCells_div_lt w k' hk'
  have hdiv : k / decoderRows w = k' / decoderRows w := by omega
  have e1 := Nat.div_add_mod k (decoderRows w)
  have e2 := Nat.div_add_mod k' (decoderRows w)
  have hmul : decoderRows w * (k / decoderRows w)
      = decoderRows w * (k' / decoderRows w) := by rw [hdiv]
  apply hne
  omega

/-- Decode positions have column coordinate at least 3, so they are
distinct from every line position `(x, y, 0)` with `x < 3` and from every
accumulator position `(0, y, 0)`. -/
theorem decodeCellPos_x_ge (w k : Nat) (hk : k < decoderSplit w * decoderRows w) :
    3 ≤ decoderSplit w + 2 - k / decoderRows w := by
  have := decoderCells_div_lt w k hk
  omega

/-! ### Grid positions as natural pairs -/

theorem posN_inj (x y x' y' : Nat) : posN x y = posN x' y' ↔ x = x' ∧ y = y' := by
  unfold posN
  constructor
  · intro he
    have h1 : (x : Int) = (x' : Int) := congrArg Prod.fst he
    have h2 : (y : Int) = (y' : Int) := by
      have h := congrArg (fun p : Pos => p.2.1) he
      simpa using h
    exact ⟨by exact_mod_cast h1, by exact_mod_cast h2⟩
  · rintro ⟨rfl, rfl⟩
    rfl

theorem decodeCellPos_eq_posN (w k : Nat) :
    decodeCellPos w k
      = posN (decoderSplit w + 2 - k / decoderRows w) (k % decoderRows w) := rfl

/-! ### Fresh placement, packaged -/

theorem add_logic_counter (c : Circuit) (g : LogicGate) :
    (c.add_logic g).id_counter = c.id_counter + 1 := rfl

/-- Placing a gate at an unregistered coordinate registers it under the
current counter and changes no other lookup. -/
theorem add_logic_fresh_gb (c : Circuit) (pos : Pos) (mo co : String)
    (h : c.get_block pos = none) :
    (c.add_logic (LogicGate.make pos mo co)).get_block pos = some c.id_counter ∧
      ∀ p : Pos, p ≠ pos →
        (c.add_logic (LogicGate.make pos mo co)).get_block p = c.get_block p := by
  have hs : c.is_solid (LogicGate.make pos mo co).position = false := by
    rw [is_solid_eq_isSome]
    show (c.get_block pos).isSome = false
    rw [h]
    rfl
  exact add_logic_fresh c _ hs

/-! ### Lengths of the fan-in input list -/

theorem paddedBinString_length (w u : Nat) (hw : 1 ≤ w) (hu : u < 2 ^ w) :
    (paddedBinString w u).length = w := by
  rw [paddedBinString_eq_map, padBits_eq_bitsOf w hw u hu]
  simp [bitsOf]

theorem decoderInputPositions_length (w u : Nat) (hw : 1 ≤ w) (hu : u < 2 ^ w) :
    (decoderInputPositions w u).length = w := by
  unfold decoderInputPositions
  rw [List.length_map, List.enum_length, paddedBinString_length w u hw hu]

theorem decoderN_le (w : Nat) : decoderSplit w * decoderRows w ≤ 2 ^ w := by
  unfold decoderRows
  rw [Nat.mul_comm]
  exact Nat.div_mul_le_self _ _

/-- Every fan-in input of a decode gate is a true/complement line position,
so its registered slot is below `3 w` and can never equal a decode or OR
slot. -/
theorem decoderInput_gb_ne (w u : Nat) (hw : 1 ≤ w) (hu : u < 2 ^ w)
    (c : Circuit)
    (hlook : ∀ x y : Nat, x < 3 → y < w → c.get_block (posN x y) = some (3 * y + x))
    (j : Nat) (hj : 3 * w ≤ j) :
    ∀ p ∈ decoderInputPositions w u, c.get_block p ≠ some j := by
  intro p hp
  obtain ⟨off, hoff⟩ := List.mem_iff_getElem?.mp hp
  have hofflen : off < (decoderInputPositions w u).length :=
    (List.getElem?_eq_some.mp hoff).1
  have hoffw : off < w := by
    rwa [decoderInputPositions_length w u hw hu] at hofflen
  rw [decoderInputPositions_get w u off hw hu hoffw] at hoff
  have hq := Option.some_inj.mp hoff
  have hp' : p = posN (if u / 2 ^ (w - 1 - off) % 2 = 1 then 2 else 1) (w - off - 1) := by
    rw [← hq]
    unfold posN
    rw [Prod.mk.injEq, Prod.mk.injEq]
    refine ⟨?_, ?_, rfl⟩
    · by_cases hb : u / 2 ^ (w - 1 - off) % 2 = 1
      · rw [if_pos hb, if_pos hb]
        exact Nat.cast_ofNat.symm
      · rw [if_neg hb, if_neg hb]
        exact Nat.cast_one.symm
    · omega
  rw [hp', hlook _ _ (by split <;> omega) (by omega)]
  intro he
  have hval := Option.some_inj.mp he
  have hx3 : (if u / 2 ^ (w - 1 - off) % 2 = 1 then 2 else 1) < 3 := by
    split <;> omega
  omega

/-! ### Stage 1: the bit-line loop, step by step -/

theorem decoderBitStep_stage (w t : Nat) (c : Circuit) (ht : t < w)
    (h : DecStage1 t c) :
    ∃ c', decoderBitStep c t = Except.ok c' ∧ DecStage1 (t + 1) c' := by
  obtain ⟨hlen, hcnt, hlook, hdom⟩ := h
  have hfresh : ∀ u : Nat, c.get_block (posN u t) = none := fun u =>
    hdom (posN u t) (fun x y _ hy he => by
      rw [posN_inj] at he
      omega)
  obtain ⟨hg0, hp0⟩ := add_logic_fresh_gb c (posN 0 t) "and" "eeee22" (hfresh 0)
  set c1 := c.add_logic (LogicGate.make (posN 0 t) "and" "eeee22") with hc1
  have hfresh1 : c1.get_block (posN 1 t) = none := by
    rw [hp0 (posN 1 t) (by intro he; rw [posN_inj] at he; omega)]
    exact hfresh 1
  obtain ⟨hg1, hp1⟩ := add_logic_fresh_gb c1 (posN 1 t) "and" "222222" hfresh1
  set c2 := c1.add_logic (LogicGate.make (posN 1 t) "and" "222222") with hc2
  have hfresh2 : c2.get_block (posN 2 t) = none := by
    rw [hp1 (posN 2 t) (by intro he; rw [posN_inj] at he; omega),
      hp0 (posN 2 t) (by intro he; rw [posN_inj] at he; omega)]
    exact hfresh 2
  obtain ⟨hg2, hp2⟩ := add_logic_fresh_gb c2 (posN 2 t) "nor" "222222" hfresh2
  set c3 := c2.add_logic (LogicGate.make (posN 2 t) "nor" "222222") with hc3
  have hcnt1 : c1.id_counter = 3 * t + 1 := by
    rw [hc1, add_logic_counter, hcnt]
  have hcnt2 : c2.id_counter = 3 * t + 2 := by
    rw [hc2, add_logic_counter, hcnt1]
  have hcnt3 : c3.id_counter = 3 * t + 3 := by
    rw [hc3, add_logic_counter, hcnt2]
  have hL0 : c3.get_block (posN 0 t) = some (3 * t) := by
    rw [hp2 (posN 0 t) (by intro he; rw [posN_inj] at he; omega),
      hp1 (posN 0 t) (by intro he; rw [posN_inj] at he; omega), hg0, hcnt]
  have hL1 : c3.get_block (posN 1 t) = some (3 * t + 1) := by
    rw [hp2 (posN 1 t) (by intro he; rw [posN_inj] at he; omega), hg1, hcnt1]
  have hL2 : c3.get_block (posN 2 t) = some (3 * t + 2) := by
    rw [hg2, hcnt2]
  have hOther : ∀ p : Pos, p ≠ posN 0 t → p ≠ posN 1 t → p ≠ posN 2 t →
      c3.get_block p = c.get_block p := by
    intro p h0 h1 h2
    rw [hp2 p h2, hp1 p h1, hp0 p h0]
  obtain ⟨c4, hw4⟩ := wire_gates_in_singleton_ok c3 (posN 0 t) [posN 1 t, posN 2 t]
  obtain ⟨hlen4, hidx4, hcnt4⟩ := wire_gates_ok_parts _ _ _ _ hw4
  refine ⟨c4, ?_, ?_, ?_, ?_, ?_⟩
  · show c3.wire_gates [posN 0 t] [posN 1 t, posN 2 t] = Except.ok c4
    exact hw4
  · rw [hlen4, hc3, add_logic_length, hc2, add_logic_length, hc1, add_logic_length,
      hlen]
    omega
  · rw [hcnt4, hcnt3]
    omega
  · intro x y hx hy
    rw [get_block_congr c4 c3 hidx4]
    by_cases hyt : y = t
    · subst hyt
      interval_cases x
      · simpa using hL0
      · exact hL1
      · exact hL2
    · rw [hOther (posN x y) (by intro he; rw [posN_inj] at he; omega) (by intro he; rw [posN_inj] at he; omega)
        (by intro he; rw [posN_inj] at he; omega)]
      exact hlook x y hx (by omega)
  · intro p hne
    rw [get_block_congr c4 c3 hidx4]
    rw [hOther p (hne 0 t (by omega) (by omega)) (hne 1 t (by omega) (by omega))
      (hne 2 t (by omega) (by omega))]
    exact hdom p (fun x y hx hy => hne x y hx (by omega))

theorem decoder_lines_state (w : Nat) :
    ∃ c, foldE decoderBitStep Circuit.empty (List.range w) = Except.ok c ∧
      DecStage1 w c :=
  foldE_range_inv DecStage1 decoderBitStep w
    (fun t s ht hs => decoderBitStep_stage w t s ht hs)
    Circuit.empty
    ⟨rfl, rfl, fun _ y _ hy => absurd hy (Nat.not_lt_zero y), fun _ _ => rfl⟩

/-! ### Stage 2: the decode-grid loop, step by step -/

theorem decoderCellStep_stage (w : Nat) (u : Nat)
    (hu : u < decoderSplit w * decoderRows w) (c : Circuit) (idx : Nat)
    (h : DecStage2 w u (c, idx)) (cell : Nat × Nat)
    (hcell : (decoderCells w)[u]? = some cell) :
    ∃ s', decoderCellStep w (c, idx) cell = Except.ok s' ∧ DecStage2 w (u + 1) s' := by
  obtain ⟨hidx, hlen, hcnt, hlook, hdec, hdom, hrec⟩ := h
  have hidx' : idx = u := hidx
  subst hidx'
  have hlenc : c.logic_gates.length = 3 * w + idx := hlen
  have hcntc : c.id_counter = 3 * w + idx := hcnt
  rw [decoderCells_getElem w idx hu] at hcell
  have hcell' : cell
      = (decoderSplit w + 2 - idx / decoderRows w, idx % decoderRows w) :=
    (Option.some_inj.mp hcell).symm
  subst hcell'
  have hne_line_dec : ∀ x y : Nat, x < 3 → posN x y ≠ decodeCellPos w idx := by
    intro x y hx he
    rw [decodeCellPos_eq_posN, posN_inj] at he
    have h3 := decodeCellPos_x_ge w idx hu
    omega
  have hne_dec_dec : ∀ k : Nat, k < idx → decodeCellPos w k ≠ decodeCellPos w idx :=
    fun k hk => decodeCellPos_inj w k idx (by omega) hu (by omega)
  have hfresh : c.get_block (decodeCellPos w idx) = none := by
    apply hdom
    · exact fun x y hx _ => (hne_line_dec x y hx).symm
    · exact fun k hk => (hne_dec_dec k hk).symm
  obtain ⟨hgU, hpres⟩ := add_logic_fresh_gb c (decodeCellPos w idx) "and" "222222" hfresh
  set c1 := c.add_logic (LogicGate.make (decodeCellPos w idx) "and" "222222") with hc1
  have hlook1 : ∀ x y : Nat, x < 3 → y < w →
      c1.get_block (posN x y) = some (3 * y + x) := by
    intro x y hx hy
    rw [hpres (posN x y) (hne_line_dec x y hx)]
    exact hlook x y hx hy
  have hdec1 : ∀ k : Nat, k < idx + 1 →
      c1.get_block (decodeCellPos w k) = some (3 * w + k) := by
    intro k hk
    by_cases hk' : k = idx
    · subst hk'
      rw [hgU, hcntc]
    · rw [hpres _ (hne_dec_dec k (by omega))]
      exact hdec k (by omega)
  have hgates1 : c1.logic_gates
      = c.logic_gates ++ [LogicGate.make (decodeCellPos w idx) "and" "222222"] := rfl
  have hrecU : c1.logic_gates[3 * w + idx]? = some (decodeGateAt w idx) := by
    rw [hgates1, ← hlenc, List.getElem?_concat_length]
    rfl
  have hrec1 : ∀ k : Nat, k < idx + 1 →
      c1.logic_gates[3 * w + k]? = some (decodeGateAt w k) := by
    intro k hk
    by_cases hk' : k = idx
    · subst hk'
      exact hrecU
    · rw [hgates1, List.getElem?_append_left (by rw [hlenc]; omega)]
      exact hrec k (by omega)
  obtain ⟨c2, hwire⟩ := wire_gates_out_singleton_ok c1
    (decoderInputPositions w idx) (decodeCellPos w idx)
  obtain ⟨hlen2, hidx2, hcnt2⟩ := wire_gates_ok_parts _ _ _ _ hwire
  have huw : idx < 2 ^ w := by
    have := decoderN_le w
    omega
  have hww : 1 ≤ w := by
    by_contra hctr
    have hw0 : w = 0 := by omega
    subst hw0
    simp [decoderSplit, decoderRows, pyRoundHalfEven] at hu
  have huntouched : ∀ k : Nat, k ≤ idx →
      c2.logic_gates[3 * w + k]? = c1.logic_gates[3 * w + k]? := by
    intro k hk
    apply wire_fanin_untouched c1 _ _ c2 hwire
    exact decoderInput_gb_ne w idx hww huw c1 hlook1 (3 * w + k) (by omega)
  have hgb2 : ∀ p : Pos, c2.get_block p = c1.get_block p :=
    get_block_congr c2 c1 hidx2
  have h2len : c2.logic_gates.length = 3 * w + (idx + 1) := by
    rw [hlen2, hc1, add_logic_length, hlenc]
    omega
  have h2cnt : c2.id_counter = 3 * w + (idx + 1) := by
    rw [hcnt2, hc1, add_logic_counter, hcntc]
    omega
  have h2look : ∀ x y : Nat, x < 3 → y < w →
      c2.get_block (posN x y) = some (3 * y + x) := by
    intro x y hx hy
    rw [hgb2]
    exact hlook1 x y hx hy
  have h2dec : ∀ k : Nat, k < idx + 1 →
      c2.get_block (decodeCellPos w k) = some (3 * w + k) := by
    intro k hk
    rw [hgb2]
    exact hdec1 k hk
  have h2dom : ∀ p : Pos, (∀ x y : Nat, x < 3 → y < w → p ≠ posN x y) →
      (∀ k : Nat, k < idx + 1 → p ≠ decodeCellPos w k) → c2.get_block p = none := by
    intro p hpl hpd
    rw [hgb2, hpres p (hpd idx (by omega))]
    exact hdom p hpl (fun k hk => hpd k (by omega))
  have h2rec : ∀ k : Nat, k < idx + 1 →
      c2.logic_gates[3 * w + k]? = some (decodeGateAt w k) := by
    intro k hk
    rw [huntouched k (by omega)]
    exact hrec1 k hk
  refine ⟨(c2, idx + 1), ?_, rfl, h2len, h2cnt, h2look, h2dec, h2dom, h2rec⟩
  show Except.map (fun c' => (c', idx + 1))
      (c1.wire_gates (decoderInputPositions w idx) [decodeCellPos w idx])
    = Except.ok (c2, idx + 1)
  rw [hwire]
  rfl

theorem decoder_grid_state (w : Nat) (c : Circuit) (h : DecStage2 w 0 (c, 0)) :
    ∃ s', foldE (decoderCellStep w) (c, 0) (decoderCells w) = Except.ok s' ∧
      DecStage2 w (decoderSplit w * decoderRows w) s' := by
  obtain ⟨s', hs', hΦ⟩ := foldE_shift (decoderCellStep w) (decoderCells w)
    (DecStage2 w) 0 (c, 0) h (fun u s' cell hu hcell hΦ => by
      obtain ⟨c', i'⟩ := s'
      have hulen : u < (decoderCells w).length := by
        have hx := (List.getElem?_eq_some.mp (by simpa using hcell)).1
        exact hx
      have huN : u < decoderSplit w * decoderRows w := by
        rwa [decoderCells_length] at hulen
      exact decoderCellStep_stage w u huN c' i' hΦ cell (by simpa using hcell))
  refine ⟨s', hs', ?_⟩
  rwa [Nat.zero_add, decoderCells_length] at hΦ

/-- The full state of `create_decoder` for `w ≥ 2`: every line and decode
gate placed and registered as described by `DecStage2`. -/
theorem create_decoder_state (w : Nat) (hw : 2 ≤ w) :
    ∃ c, create_decoder w = Except.ok c ∧
      DecStage2 w (decoderSplit w * decoderRows w)
        (c, decoderSplit w * decoderRows w) := by
  have hr : ¬pyRoundHalfEven w = 0 := by
    unfold pyRoundHalfEven
    split <;> omega
  obtain ⟨dec, hdec, h1⟩ := decoder_lines_state w
  obtain ⟨hlen1, hcnt1, hlook1, hdom1⟩ := h1
  have h0 : DecStage2 w 0 (dec, 0) := by
    refine ⟨rfl, by simpa using hlen1, by simpa using hcnt1, hlook1, ?_, ?_, ?_⟩
    · intro k hk
      omega
    · intro p hpl _
      exact hdom1 p hpl
    · intro k hk
      omega
  obtain ⟨s', hs', h2⟩ := decoder_grid_state w dec h0
  obtain ⟨c', i'⟩ := s'
  have hi' : i' = decoderSplit w * decoderRows w := h2.1
  subst hi'
  refine ⟨c', ?_, h2⟩
  simp only [create_decoder, hdec, hs', hr, if_false]

/-! ### Stage 3: the output OR accumulators -/

theorem lutOrStep_stage (w N j : Nat) (hN : N = decoderSplit w * decoderRows w)
    (c : Circuit) (h : LutOrStage w N j c) :
    LutOrStage w N (j + 1) (lutOrStep c (w + j)) := by
  obtain ⟨hlen, hcnt, hdec, hor, hdom, hrecd, hreco⟩ := h
  have hne_line : ∀ x y : Nat, y < w → posN 0 (w + j) ≠ posN x y := by
    intro x y hy he
    rw [posN_inj] at he
    omega
  have hne_dec : ∀ k : Nat, k < N → posN 0 (w + j) ≠ decodeCellPos w k := by
    intro k hk he
    rw [decodeCellPos_eq_posN, posN_inj] at he
    have h3 := decodeCellPos_x_ge w k (hN ▸ hk)
    omega
  have hne_or : ∀ j' : Nat, j' < j → posN 0 (w + j) ≠ posN 0 (w + j') := by
    intro j' hj' he
    rw [posN_inj] at he
    omega
  have hfresh : c.get_block (posN 0 (w + j)) = none := by
    apply hdom
    · exact fun x y _ hy => hne_line x y hy
    · exact hne_dec
    · exact hne_or
  obtain ⟨hgJ, hpres⟩ := add_logic_fresh_gb c (posN 0 (w + j)) "or" "22ee22" hfresh
  have hstep : lutOrStep c (w + j)
      = c.add_logic (LogicGate.make (posN 0 (w + j)) "or" "22ee22") := rfl
  rw [hstep]
  set c1 := c.add_logic (LogicGate.make (posN 0 (w + j)) "or" "22ee22") with hc1
  have hgates1 : c1.logic_gates
      = c.logic_gates ++ [LogicGate.make (posN 0 (w + j)) "or" "22ee22"] := rfl
  refine ⟨?_, ?_, ?_, ?_, ?_, ?_, ?_⟩
  · rw [hc1, add_logic_length, hlen]
    omega
  · rw [hc1, add_logic_counter, hcnt]
    omega
  · intro k hk
    rw [hpres _ (hne_dec k hk).symm]
    exact hdec k hk
  · intro j' hj'
    by_cases hj : j' = j
    · subst hj
      rw [hgJ, hcnt]
    · rw [hpres _ ((hne_or j' (by omega)).symm)]
      exact hor j' (by omega)
  · intro p hpl hpd hpo
    rw [hpres p (hpo j (by omega))]
    exact hdom p hpl hpd (fun j' hj' => hpo j' (by omega))
  · intro k hk
    rw [hgates1, List.getElem?_append_left (by rw [hlen]; omega)]
    exact hrecd k hk
  · intro j' hj'
    by_cases hj : j' = j
    · subst hj
      rw [hgates1, show 3 * w + N + j' = c.logic_gates.length from by omega,
        List.getElem?_concat_length]
      rfl
    · rw [hgates1, List.getElem?_append_left (by rw [hlen]; omega)]
      exact hreco j' (by omega)

theorem lutOr_fold_stage (w N : Nat) (hN : N = decoderSplit w * decoderRows w) :
    ∀ (m : Nat) (c : Circuit),
    LutOrStage w N 0 c →
    LutOrStage w N m (List.foldl lutOrStep c (upRange w m)) := by
  intro m
  induction m with
  | zero =>
    intro c h
    exact h
  | succ j ih =>
    intro c h
    have hup : upRange w (j + 1) = upRange w j ++ [w + j] := by
      unfold upRange
      rw [List.range_succ, List.map_append]
      rfl
    rw [hup, List.foldl_append, List.foldl_cons, List.foldl_nil]
    exact lutOrStep_stage w N j hN _ (ih c h)

/-! ### Stage 4: the LUT wiring loop, step by step -/

theorem lutCells_getElem (w u : Nat) (hu : u < decoderSplit w * decoderRows w) :
    (lutCells w)[u]? = (decoderCells w)[decoderSplit w * decoderRows w - 1 - u]? := by
  rw [lutCells_eq_reverse,
    List.getElem?_reverse (by rw [decoderCells_length]; exact hu),
    decoderCells_length]

theorem gate_conn_update (g : LogicGate) (l : List Nat) (h : g.connections = []) :
    { g with connections := g.connections ++ l } = { g with connections := l } := by
  rw [h, List.nil_append]

/-- When `m = 2 w` and the value string has length `2 w`, the registered
blocks of the wiring targets of LUT iteration `u` are exactly the OR slots
of the 1 bits of the reversed value string. -/
theorem filterMap_targets (w N : Nat) (f : Nat → Nat → List Char) (u : Nat)
    (c : Circuit)
    (hor : ∀ j : Nat, j < 2 * w →
      c.get_block (posN 0 (w + j)) = some (3 * w + N + j))
    (hflen : (f u (2 * w)).length = 2 * w) :
    (lutOutputPositions w (2 * w) f u).filterMap c.get_block
      = lutTargetSlots w N (2 * w) f u := by
  rw [lutOutputPositions_double, List.filterMap_filterMap]
  unfold lutTargetSlots
  apply List.filterMap_congr
  intro jc hjc
  obtain ⟨j, ch⟩ := jc
  have hj : j < 2 * w := by
    have hmem := List.mk_mem_enum_iff_getElem?.mp hjc
    have hlt := (List.getElem?_eq_some.mp hmem).1
    rwa [List.length_reverse, hflen] at hlt
  show (if ch = '1' then some (((0 : Int), (w : Int) + (j : Int), 0) : Pos)
      else none).bind c.get_block
    = (if ch = '1' then some (3 * w + N + j) else none)
  by_cases hc : ch = '1'
  · rw [if_pos hc, if_pos hc]
    show c.get_block (((0 : Int), (w : Int) + (j : Int), 0) : Pos)
      = some (3 * w + N + j)
    have hpp : (((0 : Int), (w : Int) + (j : Int), 0) : Pos) = posN 0 (w + j) := by
      simp [posN]
    rw [hpp]
    exact hor j hj
  · rw [if_neg hc, if_neg hc]
    rfl

theorem lutCellStep_stage (w N : Nat) (hN : N = decoderSplit w * decoderRows w)
    (f : Nat → Nat → List Char)
    (hf : ∀ i : Nat, i < N → (f i (2 * w)).length = 2 * w)
    (c0 : Circuit) (hc0 : LutOrStage w N (2 * w) c0)
    (u : Nat) (hu : u < N) (c : Circuit) (idx : Nat)
    (h : LutWireStage w N (2 * w) f c0 u (c, idx)) (cell : Nat × Nat)
    (hcell : (lutCells w)[u]? = some cell) :
    ∃ s', lutCellStep w (2 * w) f (c, idx) cell = Except.ok s' ∧
      LutWireStage w N (2 * w) f c0 (u + 1) s' := by
  obtain ⟨hidx, hlut, hlen, hrecd, hreco⟩ := h
  have hidx' : u = idx := Eq.symm hidx
  subst hidx'
  have hlutc : c.index_lut = c0.index_lut := hlut
  have hlenc : c.logic_gates.length = 3 * w + N + 2 * w := hlen
  have hk0 : N - 1 - u < N := by omega
  rw [lutCells_getElem w u (hN ▸ hu),
    show decoderSplit w * decoderRows w - 1 - u = N - 1 - u from by omega,
    decoderCells_getElem w (N - 1 - u) (hN ▸ hk0)] at hcell
  have hcell' : cell
      = (decoderSplit w + 2 - (N - 1 - u) / decoderRows w,
          (N - 1 - u) % decoderRows w) :=
    (Option.some_inj.mp hcell).symm
  subst hcell'
  have hgbU : c.get_block (decodeCellPos w (N - 1 - u)) = some (3 * w + (N - 1 - u)) := by
    rw [get_block_congr c c0 hlutc]
    exact hc0.2.2.1 (N - 1 - u) hk0
  have hor : ∀ j : Nat, j < 2 * w →
      c.get_block (posN 0 (w + j)) = some (3 * w + N + j) := by
    intro j hj
    rw [get_block_congr c c0 hlutc]
    exact hc0.2.2.2.1 j hj
  obtain ⟨c', hwire⟩ := wire_gates_in_singleton_ok c (decodeCellPos w (N - 1 - u))
    (lutOutputPositions w (2 * w) f u)
  obtain ⟨hlenw, hidxw, hcntw⟩ := wire_gates_ok_parts _ _ _ _ hwire
  have htargets : (lutOutputPositions w (2 * w) f u).filterMap c.get_block
      = lutTargetSlots w N (2 * w) f u :=
    filterMap_targets w N f u c hor (hf u hu)
  have hgates' : c'.logic_gates = modifyIdx c.logic_gates (3 * w + (N - 1 - u))
      (fun g => { g with
        connections := g.connections ++ lutTargetSlots w N (2 * w) f u }) := by
    rw [← htargets]
    exact wire_fanout_gates c (decodeCellPos w (N - 1 - u)) (3 * w + (N - 1 - u))
      (lutOutputPositions w (2 * w) f u) hgbU c' hwire
  have hrecd' : ∀ k : Nat, k < N → c'.logic_gates[3 * w + k]? =
      (if N - (u + 1) ≤ k then
        some { decodeGateAt w k with
                connections := lutTargetSlots w N (2 * w) f (N - 1 - k) }
      else some (decodeGateAt w k)) := by
    intro k hk
    by_cases hkk : k = N - 1 - u
    · subst hkk
      rw [hgates', modifyIdx_getElem_self, hrecd _ hk, if_neg (by omega),
        if_pos (by omega), show N - 1 - (N - 1 - u) = u from by omega,
        Option.map_some', gate_conn_update _ _ rfl]
    · rw [hgates', modifyIdx_getElem_ne _ _ _ _ (by omega), hrecd _ hk]
      by_cases hge : N - u ≤ k
      · rw [if_pos hge, if_pos (by omega)]
      · rw [if_neg hge, if_neg (by omega)]
  have hreco' : ∀ j : Nat, j < 2 * w →
      c'.logic_gates[3 * w + N + j]? = some (orGateAt w j) := by
    intro j hj
    rw [hgates', modifyIdx_getElem_ne _ _ _ _ (by omega)]
    exact hreco j hj
  refine ⟨(c', u + 1), ?_, rfl, hidxw.trans hlutc, hlenw.trans hlenc, hrecd', hreco'⟩
  show Except.map (fun x => (x, u + 1))
      (c.wire_gates [decodeCellPos w (N - 1 - u)] (lutOutputPositions w (2 * w) f u))
    = Except.ok (c', u + 1)
  rw [hwire]
  rfl

theorem lut_wire_state (w N : Nat) (hN : N = decoderSplit w * decoderRows w)
    (f : Nat → Nat → List Char)
    (hf : ∀ i : Nat, i < N → (f i (2 * w)).length = 2 * w)
    (c0 : Circuit) (hc0 : LutOrStage w N (2 * w) c0)
    (h : LutWireStage w N (2 * w) f c0 0 (c0, 0)) :
    ∃ s', foldE (lutCellStep w (2 * w) f) (c0, 0) (lutCells w) = Except.ok s' ∧
      LutWireStage w N (2 * w) f c0 N s' := by
  have hclen : (lutCells w).length = N := by
    rw [lutCells_eq_reverse, List.length_reverse, decoderCells_length, hN]
  obtain ⟨s', hs', hΦ⟩ := foldE_shift (lutCellStep w (2 * w) f) (lutCells w)
    (LutWireStage w N (2 * w) f c0) 0 (c0, 0) h (fun u s' cell hu0 hcell hΦ => by
      obtain ⟨c', i'⟩ := s'
      have hu : u < N := by
        have hx := (List.getElem?_eq_some.mp (by simpa using hcell)).1
        rwa [hclen] at hx
      exact lutCellStep_stage w N hN f hf c0 hc0 u hu c' i' hΦ cell (by simpa using hcell))
  refine ⟨s', hs', ?_⟩
  rwa [Nat.zero_add, hclen] at hΦ

/-- Full functional correctness of `create_lut` in the matched-width case
`m = 2 w`: the build succeeds; the decode gate of address `k` (slot
`3 w + k`) ends up with exactly the OR-accumulator slots of the 1 bits of
the REVERSED value string of iteration `N - 1 - k` (the loop walks the
grid backwards); and the OR accumulators (slots `3 w + N + j`) stay
unwired. -/
theorem create_lut_spec (w : Nat) (hw : 2 ≤ w) (f : Nat → Nat → List Char)
    (hf : ∀ i : Nat, i < decoderSplit w * decoderRows w →
      (f i (2 * w)).length = 2 * w) :
    ∃ c, create_lut w (2 * w) f = Except.ok c ∧
      c.logic_gates.length = 3 * w + decoderSplit w * decoderRows w + 2 * w ∧
      (∀ k : Nat, k < decoderSplit w * decoderRows w →
        c.logic_gates[3 * w + k]? = some { decodeGateAt w k with
          connections := lutTargetSlots w (decoderSplit w * decoderRows w) (2 * w) f
            (decoderSplit w * decoderRows w - 1 - k) }) ∧
      (∀ j : Nat, j < 2 * w →
        c.logic_gates[3 * w + decoderSplit w * decoderRows w + j]?
          = some (orGateAt w j)) := by
  have hr : ¬pyRoundHalfEven w = 0 := by
    unfold pyRoundHalfEven
    split <;> omega
  obtain ⟨dec, hdec, hst⟩ := create_decoder_state w hw
  obtain ⟨hidx0, hlen0, hcnt0, hlook0, hdec0, hdom0, hrec0⟩ := hst
  have hor0 : LutOrStage w (decoderSplit w * decoderRows w) 0 dec := by
    refine ⟨by simpa using hlen0, by simpa using hcnt0, hdec0, ?_, ?_, hrec0, ?_⟩
    · intro j hj
      omega
    · intro p hpl hpd _
      exact hdom0 p hpl hpd
    · intro j hj
      omega
  have hor := lutOr_fold_stage w (decoderSplit w * decoderRows w) rfl (2 * w) dec hor0
  have hw0 : LutWireStage w (decoderSplit w * decoderRows w) (2 * w) f
      (List.foldl lutOrStep dec (upRange w (2 * w))) 0
      (List.foldl lutOrStep dec (upRange w (2 * w)), 0) := by
    refine ⟨rfl, rfl, hor.1, ?_, ?_⟩
    · intro k hk
      rw [if_neg (by omega)]
      exact hor.2.2.2.2.2.1 k hk
    · exact fun j hj => hor.2.2.2.2.2.2 j hj
  obtain ⟨res, hres, hfin⟩ := lut_wire_state w (decoderSplit w * decoderRows w) rfl
    f hf (List.foldl lutOrStep dec (upRange w (2 * w))) hor hw0
  obtain ⟨c', i'⟩ := res
  obtain ⟨hfi, hflut, hflen, hfrecd, hfreco⟩ := hfin
  refine ⟨c', ?_, hflen, ?_, hfreco⟩
  · simp only [create_lut, hdec]
    rw [if_neg hr, hres]
  · intro k hk
    rw [hfrecd k hk, if_pos (by omega)]

/-- Claim C2, amended: the LUT wiring loop traverses the decode grid in
exactly the REVERSE of the decoder's creation order, so the decode gate of
address `k` is wired on iteration `N - 1 - k` (`N` the number of decode
gates); and, in the matched-width case `m = 2 w` with every value string of
length `m`, the build succeeds and the decode gate of address `k` (slot
`3 w + k`, still the plain AND gate the decoder placed) drives exactly the
output OR accumulators (slots `3 w + N + j`) at the positions `j` where
the value string `f (N - 1 - k) m` — read least-significant (reversed)
position first — has a `'1'`, while the OR accumulators themselves have no
outgoing connections.  So the accumulator set wired from a decode gate is
the 1-bit set of the value of address `N - 1 - k`, not of `k` as the
claim states. -/
theorem claim2_lut_wiring_amended (w : Nat) (hw : 2 ≤ w)
    (f : Nat → Nat → List Char)
    (hf : ∀ i : Nat, i < decoderSplit w * decoderRows w →
      (f i (2 * w)).length = 2 * w) :
    lutCells w = (decoderCells w).reverse ∧
      ∃ c, create_lut w (2 * w) f = Except.ok c ∧
        c.logic_gates.length = 3 * w + decoderSplit w * decoderRows w + 2 * w ∧
        (∀ k : Nat, k < decoderSplit w * decoderRows w →
          c.logic_gates[3 * w + k]? = some { decodeGateAt w k with
            connections := lutTargetSlots w (decoderSplit w * decoderRows w) (2 * w) f
              (decoderSplit w * decoderRows w - 1 - k) }) ∧
        (∀ j : Nat, j < 2 * w →
          c.logic_gates[3 * w + decoderSplit w * decoderRows w + j]?
            = some (orGateAt w j)) :=
  ⟨lutCells_eq_reverse w, create_lut_spec w hw f hf⟩

/-- Claim C2, witness at `w = 2, f = square_func` (`m = 4`, `N = 4`): the
hypotheses hold concretely and the four decode gates carry the
reversed-order square table. -/
theorem claim2_lut_wiring_witness :
    (2 ≤ 2 ∧ ∀ i : Nat, i < decoderSplit 2 * decoderRows 2 →
        (square_func i (2 * 2)).length = 2 * 2) ∧
      (lutCells 2 = (decoderCells 2).reverse ∧
        ∃ c, create_lut 2 (2 * 2) square_func = Except.ok c ∧
          c.logic_gates.length = 3 * 2 + decoderSplit 2 * decoderRows 2 + 2 * 2 ∧
          (∀ k : Nat, k < decoderSplit 2 * decoderRows 2 →
            c.logic_gates[3 * 2 + k]? = some { decodeGateAt 2 k with
              connections := lutTargetSlots 2 (decoderSplit 2 * decoderRows 2) (2 * 2)
                square_func (decoderSplit 2 * decoderRows 2 - 1 - k) }) ∧
          (∀ j : Nat, j < 2 * 2 →
            c.logic_gates[3 * 2 + decoderSplit 2 * decoderRows 2 + j]?
              = some (orGateAt 2 j))) :=
  ⟨⟨by omega, by decide⟩,
    claim2_lut_wiring_amended 2 (by omega) square_func (by decide)⟩
